import Mathlib

/-!
Verification of the core build engine of the games-framework repository.

The Lean definitions below are a shallow embedding of the Python sources:

* `src/build/async.py`   — the `Deferred` one-shot future,
* `src/build/task.py`    — the in-process / multi-process task executors,
* `src/build/project.py` — `Project.add_rules`,
* `src/build/graph.py`   — `RuleGraph` (with the networkx 1.x algorithms it
  calls embedded explicitly),
* `src/build/context.py` — the `BuildContext` driver (`execute` / `_pump` /
  `_issue_rule` / `_execute_rule`), `RuleContext._gather_input_files`,
  `check_predecessor_failures` and `cascade_failure`.

Python callables (the subscriber functions of a `Deferred`) are modelled by
opaque identifiers; invoking one is modelled by emitting the pair
(identifier, arguments) into a call log.  Python dictionaries are modelled by
association lists whose iteration order is insertion order (a modelling
choice documented where it matters).  Stateful code is modelled by explicit
state passing; `assert` statements and raised exceptions are modelled with
`Except`.
-/

namespace Anvil

/-! ## Deferred (src/build/async.py) -/

/-- Positional arguments passed to `callback` / `errback` (Python `*args`).
Keyword arguments are not used by the build core and are omitted. -/
abbrev DArgs := List String

/-- State of `async.Deferred`: subscriber lists, the `_is_done` / `_failed`
flags and the stored resolution arguments (`_args`). -/
structure Deferred where
  callbacks : List Nat
  errbacks : List Nat
  is_done : Bool
  failed : Bool
  args : Option DArgs
deriving DecidableEq

/-- `Deferred.__init__`. -/
def Deferred.init : Deferred :=
  { callbacks := [], errbacks := [], is_done := false, failed := false,
    args := none }

/-- `Deferred.add_callback_fn`: if already done and not failed the function is
invoked immediately with the stored arguments; if pending it is appended to
the callback list.  Returns the new state and the emitted invocations. -/
def addCallbackFn (d : Deferred) (fn : Nat) : Deferred × List (Nat × DArgs) :=
  if d.is_done then
    (d, if d.failed then []
        else match d.args with
          | some a => [(fn, a)]
          | none => [])
  else
    ({ d with callbacks := d.callbacks ++ [fn] }, [])

/-- `Deferred.add_errback_fn`: symmetric to `addCallbackFn`. -/
def addErrbackFn (d : Deferred) (fn : Nat) : Deferred × List (Nat × DArgs) :=
  if d.is_done then
    (d, if d.failed then
          match d.args with
          | some a => [(fn, a)]
          | none => []
        else [])
  else
    ({ d with errbacks := d.errbacks ++ [fn] }, [])

/-- `Deferred.callback`: `assert not self._is_done` is modelled as
`Except.error`; on success the stored args are set, both subscriber lists are
cleared and the registered callbacks fire in registration order. -/
def callbackOp (d : Deferred) (a : DArgs) :
    Except Unit (Deferred × List (Nat × DArgs)) :=
  if d.is_done then .error ()
  else .ok ({ d with is_done := true, args := some a, callbacks := [], errbacks := [] },
            d.callbacks.map (fun fn => (fn, a)))

/-- `Deferred.errback`: as `callbackOp` but sets `_failed` and fires the
errbacks. -/
def errbackOp (d : Deferred) (a : DArgs) :
    Except Unit (Deferred × List (Nat × DArgs)) :=
  if d.is_done then .error ()
  else .ok ({ d with is_done := true, failed := true, args := some a, callbacks := [], errbacks := [] },
            d.errbacks.map (fun fn => (fn, a)))

/-- A subscriber registration: success (`add_callback_fn`) or failure
(`add_errback_fn`). -/
inductive DReg where
  | cb (fn : Nat)
  | eb (fn : Nat)

/-- An operation performed on a deferred. -/
inductive DOp where
  | addCb (fn : Nat)
  | addEb (fn : Nat)
  | resolveOk (a : DArgs)
  | resolveErr (a : DArgs)

/-- Interpret a registration as an operation. -/
def DReg.toOp : DReg → DOp
  | .cb fn => .addCb fn
  | .eb fn => .addEb fn

/-- Callback identifiers occurring in a list of registrations. -/
def cbIds (l : List DReg) : List Nat :=
  l.filterMap (fun r => match r with | .cb fn => some fn | .eb _ => none)

/-- Errback identifiers occurring in a list of registrations. -/
def ebIds (l : List DReg) : List Nat :=
  l.filterMap (fun r => match r with | .cb _ => none | .eb fn => some fn)

/-- Run one operation on a deferred. -/
def runOp (d : Deferred) (op : DOp) :
    Except Unit (Deferred × List (Nat × DArgs)) :=
  match op with
  | .addCb fn => .ok (addCallbackFn d fn)
  | .addEb fn => .ok (addErrbackFn d fn)
  | .resolveOk a => callbackOp d a
  | .resolveErr a => errbackOp d a

/-- Run a sequence of operations, accumulating the emitted invocations. -/
def runOps (d : Deferred) : List DOp → Except Unit (Deferred × List (Nat × DArgs))
  | [] => .ok (d, [])
  | op :: ops =>
    match runOp d op with
    | .error e => .error e
    | .ok (d1, g1) =>
      match runOps d1 ops with
      | .error e => .error e
      | .ok (d2, g2) => .ok (d2, g1 ++ g2)

theorem runOps_regs_pending (d : Deferred) (regs : List DReg)
    (h : d.is_done = false) :
    runOps d (regs.map DReg.toOp) =
      .ok ({ d with callbacks := d.callbacks ++ cbIds regs, errbacks := d.errbacks ++ ebIds regs }, []) := by
  induction regs generalizing d with
  | nil => simp [runOps, cbIds, ebIds]
  | cons r rs ih =>
    cases r with
    | cb fn =>
      have hstep : runOp d (DReg.toOp (.cb fn)) =
          .ok ({ d with callbacks := d.callbacks ++ [fn] }, []) := by
        simp [runOp, DReg.toOp, addCallbackFn, h]
      simp only [List.map_cons, runOps, hstep]
      rw [ih _ (by simp [h])]
      simp [cbIds, ebIds]
    | eb fn =>
      have hstep : runOp d (DReg.toOp (.eb fn)) =
          .ok ({ d with errbacks := d.errbacks ++ [fn] }, []) := by
        simp [runOp, DReg.toOp, addErrbackFn, h]
      simp only [List.map_cons, runOps, hstep]
      rw [ih _ (by simp [h])]
      simp [cbIds, ebIds]

theorem runOps_regs_done (d : Deferred) (regs : List DReg) (a : DArgs)
    (hdone : d.is_done = true) (hargs : d.args = some a) :
    runOps d (regs.map DReg.toOp) =
      .ok (d, (if d.failed then ebIds regs else cbIds regs).map (fun fn => (fn, a))) := by
  induction regs with
  | nil => simp [runOps, cbIds, ebIds]
  | cons r rs ih =>
    cases r with
    | cb fn =>
      have hstep : runOp d (DReg.toOp (.cb fn)) =
          .ok (d, if d.failed then [] else [(fn, a)]) := by
        simp [runOp, DReg.toOp, addCallbackFn, hdone, hargs]
      simp only [List.map_cons, runOps, hstep]
      rw [ih]
      cases hf : d.failed <;> simp [cbIds, ebIds, hf]
    | eb fn =>
      have hstep : runOp d (DReg.toOp (.eb fn)) =
          .ok (d, if d.failed then [(fn, a)] else []) := by
        simp [runOp, DReg.toOp, addErrbackFn, hdone, hargs]
      simp only [List.map_cons, runOps, hstep]
      rw [ih]
      cases hf : d.failed <;> simp [cbIds, ebIds, hf]

theorem runOps_append (d : Deferred) (l1 l2 : List DOp) :
    runOps d (l1 ++ l2) =
      match runOps d l1 with
      | .error e => .error e
      | .ok (d1, g1) =>
        match runOps d1 l2 with
        | .error e => .error e
        | .ok (d2, g2) => .ok (d2, g1 ++ g2) := by
  induction l1 generalizing d with
  | nil =>
    simp only [List.nil_append, runOps]
    cases h2 : runOps d l2 with
    | error e => rfl
    | ok p => cases p ; simp
  | cons op ops ih =>
    simp only [List.cons_append, runOps]
    cases h1 : runOp d op with
    | error e => rfl
    | ok p =>
      obtain ⟨d1, g1⟩ := p
      simp only [ih d1, List.append_eq]
      cases h2 : runOps d1 ops with
      | error e => simp
      | ok q =>
        obtain ⟨d2, g2⟩ := q
        cases h3 : runOps d2 l2 with
        | error e => simp [h3]
        | ok r => cases r ; simp [h3]

/-- C6: a `Deferred` leaves the pending state at most once: after a successful
`callback` or `errback`, any further `callback` or `errback` trips the
`assert not self._is_done` guard (modelled as `Except.error`), so no second
outcome is ever delivered. -/
theorem deferred_resolves_at_most_once (d d1 : Deferred) (a b : DArgs)
    (g : List (Nat × DArgs))
    (h : callbackOp d a = .ok (d1, g) ∨ errbackOp d a = .ok (d1, g)) :
    callbackOp d1 b = .error () ∧ errbackOp d1 b = .error () := by
  have hd1 : d1.is_done = true := by
    rcases h with h | h <;> by_cases hdone : d.is_done <;>
      simp [callbackOp, errbackOp, hdone] at h <;>
      · obtain ⟨h1, h2⟩ := h
        rw [← h1]
  simp [callbackOp, errbackOp, hd1]

/-- Witness for C6 at a concrete input: resolving a fresh deferred succeeds,
and both re-resolution attempts on the result are rejected. -/
theorem deferred_resolves_at_most_once_witness :
    callbackOp Deferred.init ["res"] =
      .ok ({ callbacks := [], errbacks := [], is_done := true, failed := false, args := some ["res"] }, [])
    ∧ (callbackOp { callbacks := [], errbacks := [], is_done := true, failed := false, args := some ["res"] } [] = .error ()
       ∧ errbackOp { callbacks := [], errbacks := [], is_done := true, failed := false, args := some ["res"] } [] = .error ()) :=
  ⟨rfl, deferred_resolves_at_most_once Deferred.init _ ["res"] [] [] (Or.inl rfl)⟩

/-- C7: subscribers registered before resolution fire at resolution time, in
registration order, with the resolution arguments; subscribers registered
after resolution fire immediately with the same stored arguments; and only
the list matching the outcome fires (for a success no errback is invoked,
for a failure no callback is invoked).  The call log of a whole trace of
registrations around a resolution is exactly the matching identifiers in
registration order, each paired with the resolution arguments. -/
theorem deferred_subscriber_order_and_args (pre post : List DReg) (a : DArgs) :
    (∃ dfin, runOps Deferred.init
        (pre.map DReg.toOp ++ DOp.resolveOk a :: post.map DReg.toOp)
        = .ok (dfin, (cbIds pre ++ cbIds post).map (fun fn => (fn, a)))) ∧
    (∃ dfin, runOps Deferred.init
        (pre.map DReg.toOp ++ DOp.resolveErr a :: post.map DReg.toOp)
        = .ok (dfin, (ebIds pre ++ ebIds post).map (fun fn => (fn, a)))) := by
  constructor
  · refine ⟨{ callbacks := [], errbacks := [], is_done := true, failed := false, args := some a }, ?_⟩
    rw [runOps_append, runOps_regs_pending _ _ rfl]
    have hres : runOp { Deferred.init with callbacks := Deferred.init.callbacks ++ cbIds pre, errbacks := Deferred.init.errbacks ++ ebIds pre } (DOp.resolveOk a) =
        .ok ({ callbacks := [], errbacks := [], is_done := true, failed := false, args := some a },
             (cbIds pre).map (fun fn => (fn, a))) := by
      simp [runOp, callbackOp, Deferred.init]
    simp only [runOps, hres]
    rw [runOps_regs_done _ _ a rfl rfl]
    simp
  · refine ⟨{ callbacks := [], errbacks := [], is_done := true, failed := true, args := some a }, ?_⟩
    rw [runOps_append, runOps_regs_pending _ _ rfl]
    have hres : runOp { Deferred.init with callbacks := Deferred.init.callbacks ++ cbIds pre, errbacks := Deferred.init.errbacks ++ ebIds pre } (DOp.resolveErr a) =
        .ok ({ callbacks := [], errbacks := [], is_done := true, failed := true, args := some a },
             (ebIds pre).map (fun fn => (fn, a))) := by
      simp [runOp, errbackOp, Deferred.init]
    simp only [runOps, hres]
    rw [runOps_regs_done _ _ a rfl rfl]
    simp

/-! ## Task executors (src/build/task.py) -/

/-- A Python runtime value as the executors see it: a payload plus whether it
is an instance of `Exception` (the `isinstance(args[0], Exception)` test in
`_thunk_callback`). -/
structure PyValue where
  isExc : Bool
  payload : String
deriving DecidableEq

/-- The behavior of a `Task.execute()` call in a worker: it either returns a
value or raises an exception. -/
inductive TaskBehavior where
  | ret (v : PyValue)
  | exn (e : String)

/-- The outcome delivered on the deferred returned by `run_task_async`. -/
inductive TaskOutcome where
  | success (v : PyValue)
  | failure (e : PyValue)
deriving DecidableEq

/-- `InProcessTaskExecutor.run_task_async`: guard on `self.closed`, then run
the task inline; `deferred.callback(result)` on a normal return,
`deferred.errback(exception=e)` on a raised exception.  The deferred
bookkeeping is reduced to the outcome it delivers. -/
def inProcessRunTaskAsync (closed : Bool) (t : TaskBehavior) :
    Except String TaskOutcome :=
  if closed then .error "Executor has been closed and cannot run new tasks"
  else .ok (match t with
    | .ret v => .success v
    | .exn e => .failure ⟨true, e⟩)

/-- `_task_thunk`, the worker side of `MultiProcessTaskExecutor`: returns the
result of `task.execute()`, or the raised exception as a value. -/
def taskThunk : TaskBehavior → PyValue
  | .ret v => v
  | .exn e => ⟨true, e⟩

/-- `MultiProcessTaskExecutor.run_task_async` combined with its
`_thunk_callback`: the worker result is inspected with
`isinstance(args[0], Exception)`; exception instances resolve the deferred
as failure, anything else as success. -/
def multiProcessRunTaskAsync (closed : Bool) (t : TaskBehavior) :
    Except String TaskOutcome :=
  if closed then .error "Executor has been closed and cannot run new tasks"
  else .ok (
    let r := taskThunk t
    if r.isExc then .failure r else .success r)

/-- C9: the two executor variants agree except on tasks whose `execute()`
returns normally with a value that is an `Exception` instance: there the
in-process executor delivers success with the value while the multi-process
executor (which transports worker errors by returning them) delivers
failure. -/
theorem executors_agree_except_exception_valued_returns (t : TaskBehavior) :
    (∀ v, t = .ret v → v.isExc = true →
      inProcessRunTaskAsync false t = .ok (.success v) ∧
      multiProcessRunTaskAsync false t = .ok (.failure v)) ∧
    ((∀ v, t = .ret v → v.isExc = false) →
      inProcessRunTaskAsync false t = multiProcessRunTaskAsync false t) := by
  constructor
  · rintro v rfl hv
    constructor
    · rfl
    · simp [multiProcessRunTaskAsync, taskThunk, hv]
  · intro hnv
    cases t with
    | ret v =>
      have hv := hnv v rfl
      simp [inProcessRunTaskAsync, multiProcessRunTaskAsync, taskThunk, hv]
    | exn e =>
      simp [inProcessRunTaskAsync, multiProcessRunTaskAsync, taskThunk]

/-- Witness for C9: a task returning an `Exception` instance splits the two
executors; a task returning an ordinary value does not. -/
theorem executors_agree_except_exception_valued_returns_witness :
    (inProcessRunTaskAsync false (.ret ⟨true, "boom"⟩) = .ok (.success ⟨true, "boom"⟩) ∧
     multiProcessRunTaskAsync false (.ret ⟨true, "boom"⟩) = .ok (.failure ⟨true, "boom"⟩)) ∧
    inProcessRunTaskAsync false (.ret ⟨false, "data"⟩) =
      multiProcessRunTaskAsync false (.ret ⟨false, "data"⟩) :=
  ⟨(executors_agree_except_exception_valued_returns (.ret ⟨true, "boom"⟩)).1
      ⟨true, "boom"⟩ rfl rfl,
   (executors_agree_except_exception_valued_returns (.ret ⟨false, "data"⟩)).2
      (by rintro v hv ; cases hv ; rfl)⟩

/-- The `_waiting_deferreds` table of a `MultiProcessTaskExecutor`: it is
populated (keyed by the deferred) only by `run_task_async`.  Deferreds are
identified by `Nat` tags. -/
structure MPExecutorState where
  waiting : List Nat

/-- `MultiProcessTaskExecutor.wait`: for each listed deferred, a resolved one
is skipped; otherwise `self._waiting_deferreds[deferred]` is subscripted — a
Python dict access that raises `KeyError` when the deferred was never
registered by `run_task_async` — and then the pool result is awaited
(modelled as a normal return). -/
def multiProcessWait (ex : MPExecutorState) (isDone : Nat → Bool) :
    List Nat → Except String Unit
  | [] => .ok ()
  | d :: rest =>
    if isDone d then multiProcessWait ex isDone rest
    else if ex.waiting.contains d then multiProcessWait ex isDone rest
    else .error "KeyError"

/-- `BuildContext.wait` (src/build/context.py): it simply delegates the
deferreds it is given — documented to be the ones returned by `execute` —
to `self.task_executor.wait`. -/
def buildContextWait (ex : MPExecutorState) (isDone : Nat → Bool)
    (ds : List Nat) : Except String Unit :=
  multiProcessWait ex isDone ds

/-- C8 (code bug): with the multi-process executor, `BuildContext.wait` on
the still-pending deferred returned by `execute` raises `KeyError` instead
of blocking: the main deferred of `execute` is created locally and never
registered in `_waiting_deferreds`, which only `run_task_async` populates.
Here deferred 0 is the pending main deferred and deferred 7 is one that a
task submission registered. -/
theorem buildcontext_wait_raises_keyerror :
    buildContextWait ⟨[7]⟩ (fun _ => false) [0] = .error "KeyError" := rfl

/-! ## Project.add_rules (src/build/project.py) -/

/-- Rule data as constructed by `Rule.__init__` in src/build/project.py:
the validated `name` and the derived `full_name` (leading colon). -/
structure PRule where
  name : String
  full_name : String
  srcs : List String
  deps : List String
deriving DecidableEq

/-- `dict.get(key, None)` on an association-list dict. -/
def pyGet {β : Type} : List (String × β) → String → Option β
  | [], _ => none
  | (k, v) :: rest, key => if k = key then some v else pyGet rest key

/-- `dict[key] = value` on an association-list dict (replace in place, else
append). -/
def pySet {β : Type} : List (String × β) → String → β → List (String × β)
  | [], key, v => [(key, v)]
  | (k, w) :: rest, key, v =>
    if k = key then (k, v) :: rest else (k, w) :: pySet rest key v

/-- `Rule.__init__` name handling from src/build/project.py: reject an empty
name, a name containing whitespace, or a name starting with a colon; set
`full_name` to a colon followed by the name.  (The str-or-list
normalization of srcs/deps and `util.validate_names` are not needed by the
claims and are omitted.) -/
def ruleInit (name : String) (srcs deps : List String) : Except String PRule :=
  if name.length = 0 then .error "Invalid name"
  else if name.toList.any Char.isWhitespace then
    .error "Name contains leading or trailing whitespace"
  else if name.toList.head? = some ':' then .error "Name cannot start with :"
  else .ok { name := name, full_name := ":" ++ name, srcs := srcs, deps := deps }

/-- `Project.add_rules`: the first pass checks `self.rules.get(rule.name,
None)` for every rule to add (the truthiness test on the rule object is
modelled as presence) and raises `NameError` on a hit; the second pass
stores every rule under `rule.full_name`. -/
def addRules (rules : List (String × PRule)) (toAdd : List PRule) :
    Except String (List (String × PRule)) :=
  if toAdd.any (fun r => (pyGet rules r.name).isSome) then
    .error "NameError: a rule with this name is already defined"
  else .ok (toAdd.foldl (fun m r => pySet m r.full_name r) rules)

theorem pyGet_none_of_no_colon {β : Type} (m : List (String × β)) (k : String)
    (hkeys : ∀ p ∈ m, p.1.toList.head? = some ':')
    (hk : k.toList.head? ≠ some ':') : pyGet m k = none := by
  induction m with
  | nil => rfl
  | cons p rest ih =>
    obtain ⟨k0, v0⟩ := p
    have h0 := hkeys (k0, v0) (by simp)
    have hne : k0 ≠ k := by
      intro he
      exact hk (he ▸ h0)
    simp only [pyGet, hne, if_false]
    exact ih (fun q hq => hkeys q (by simp [hq]))

theorem pyGet_pySet_self {β : Type} (m : List (String × β)) (k : String)
    (v : β) : pyGet (pySet m k v) k = some v := by
  induction m with
  | nil => simp [pySet, pyGet]
  | cons p rest ih =>
    obtain ⟨k0, v0⟩ := p
    by_cases he : k0 = k
    · simp [pySet, pyGet, he]
    · simp [pySet, pyGet, he, ih]

/-- C10: `Project.add_rules` never detects a collision with rules added by an
earlier call: the duplicate check looks up `rule.name` (no leading colon)
while the table is keyed by `full_name` (which always has a leading colon),
so adding a rule whose name equals an existing rule name raises no error
and silently replaces the previous entry in the rule table. -/
theorem add_rules_misses_duplicates (rules : List (String × PRule))
    (hkeys : ∀ p ∈ rules, p.1.toList.head? = some ':')
    (name : String) (srcs deps : List String) (r r0 : PRule)
    (hr : ruleInit name srcs deps = .ok r)
    (hprev : pyGet rules (":" ++ name) = some r0) :
    addRules rules [r] = .ok (pySet rules (":" ++ name) r) ∧
    pyGet (pySet rules (":" ++ name) r) (":" ++ name) = some r := by
  simp only [ruleInit] at hr
  by_cases h0 : name.length = 0
  · rw [if_pos h0] at hr ; exact Except.noConfusion hr
  rw [if_neg h0] at hr
  by_cases h1 : name.toList.any Char.isWhitespace = true
  · rw [if_pos h1] at hr ; exact Except.noConfusion hr
  rw [if_neg h1] at hr
  by_cases h2 : name.toList.head? = some ':'
  · rw [if_pos h2] at hr ; exact Except.noConfusion hr
  rw [if_neg h2] at hr
  cases hr
  have hget : pyGet rules name = none :=
    pyGet_none_of_no_colon rules name hkeys h2
  constructor
  · simp [addRules, hget]
  · exact pyGet_pySet_self rules (":" ++ name) _

/-- The rule named `a` that is already in the project (for the C10 witness). -/
def pruleOld : PRule := { name := "a", full_name := ":a", srcs := [], deps := [] }

/-- A second rule also named `a` (for the C10 witness). -/
def pruleNew : PRule := { name := "a", full_name := ":a", srcs := ["b.txt"], deps := [] }

/-- Witness for C10: a project already holding rule `:a` accepts a second
rule named `a` without error, and the table afterwards holds the new rule
under `:a`. -/
theorem add_rules_misses_duplicates_witness :
    ruleInit "a" ["b.txt"] [] = .ok pruleNew ∧
    addRules [(":a", pruleOld)] [pruleNew] = .ok [(":a", pruleNew)] ∧
    pyGet [(":a", pruleNew)] ":a" = some pruleNew := by
  refine ⟨rfl, ?_, ?_⟩
  · have h := add_rules_misses_duplicates [(":a", pruleOld)]
      (by decide) "a" ["b.txt"] [] pruleNew pruleOld rfl rfl
    exact h.1
  · have h := add_rules_misses_duplicates [(":a", pruleOld)]
      (by decide) "a" ["b.txt"] [] pruleNew pruleOld rfl rfl
    exact h.2

/-! ## Rule graph (src/build/graph.py)

The graph code runs on networkx 1.x; the algorithms it calls
(`DiGraph.add_edge` / `add_path` / `reverse`, `topological_sort`,
`has_path`) are embedded here explicitly.  networkx stores adjacency in
Python dicts whose iteration order is hash-dependent; the embedding models
every dict in insertion order.  Dict iteration order matters only to C1,
where the recorded divergence spells the modelling out. -/

/-- `util.is_rule_path` / `util.is_rule_name`: a nonempty string containing
a colon. -/
def isRulePath (s : String) : Bool :=
  s.length != 0 && s.toList.contains ':'

/-- A networkx `DiGraph`: node list and successor lists, both in insertion
order. -/
structure NXDiGraph where
  nodes : List String
  adj : List (String × List String)
deriving DecidableEq

/-- Successor list of a node (`G[u]`), empty when absent. -/
def adjOf (g : NXDiGraph) (u : String) : List String :=
  match pyGet g.adj u with
  | some l => l
  | none => []

/-- `DiGraph.add_node`. -/
def addNode (g : NXDiGraph) (u : String) : NXDiGraph :=
  if g.nodes.contains u then g
  else { nodes := g.nodes ++ [u], adj := g.adj ++ [(u, [])] }

/-- `DiGraph.add_edge` (auto-adds endpoints; duplicate edge is a no-op). -/
def addEdge (g : NXDiGraph) (u v : String) : NXDiGraph :=
  let g1 := addNode (addNode g u) v
  if (adjOf g1 u).contains v then g1
  else { g1 with adj := pySet g1.adj u (adjOf g1 u ++ [v]) }

/-- `DiGraph.add_path`: edges between consecutive entries. -/
def addPath (g : NXDiGraph) : List String → NXDiGraph
  | [] => g
  | [u] => addNode g u
  | u :: v :: rest => addPath (addEdge g u v) (v :: rest)

/-- `DiGraph.reverse`: same nodes, every edge flipped (edges visited per
node in insertion order). -/
def reverseGraph (g : NXDiGraph) : NXDiGraph :=
  let base : NXDiGraph := { nodes := g.nodes, adj := g.nodes.map (fun u => (u, [])) }
  g.nodes.foldl (fun acc u => (adjOf g u).foldl (fun acc2 v => addEdge acc2 v u) acc) base

/-- Failure modes of the embedded `topological_sort`. -/
inductive TopoErr where
  | unfeasible
  | fuelOut
deriving DecidableEq

/-- Traversal state of networkx 1.x `topological_sort`: the `seen` and
`explored` sets and the output order.  Python appends finished nodes to
`order` and finally returns `list(reversed(order))`; here `order` is built
by consing, which yields the reversed list directly. -/
structure TopoState where
  seen : List String
  explored : List String
  order : List String
deriving DecidableEq

/-- The inner fringe loop of networkx 1.x `topological_sort`.  The fringe is
a stack with its top at the head (Python keeps the top at the end and does
`fringe.extend(new_nodes)`, then takes `fringe[-1]`; pushing
`new_nodes.reverse` at the head is the same traversal).  A successor that is
`seen` but not `explored` raises `NetworkXUnfeasible`. -/
def topoInner (adj : String → List String) :
    Nat → List String → TopoState → Except TopoErr TopoState
  | 0, _, _ => .error .fuelOut
  | _ + 1, [], st => .ok st
  | fuel + 1, w :: fringe, st =>
    if st.explored.contains w then topoInner adj fuel fringe st
    else
      let seen := if st.seen.contains w then st.seen else st.seen ++ [w]
      if (adj w).any (fun n => !st.explored.contains n && seen.contains n) then
        .error .unfeasible
      else
        let newNodes := (adj w).filter (fun n => !st.explored.contains n)
        if newNodes.isEmpty then
          topoInner adj fuel fringe
            { seen := seen, explored := st.explored ++ [w], order := w :: st.order }
        else
          topoInner adj fuel (newNodes.reverse ++ w :: fringe) { st with seen := seen }

/-- The outer loop of networkx 1.x `topological_sort` over `nbunch`. -/
def topoOuter (adj : String → List String) (innerFuel : Nat) :
    Nat → List String → TopoState → Except TopoErr TopoState
  | 0, _, _ => .error .fuelOut
  | _ + 1, [], st => .ok st
  | fuel + 1, v :: vs, st =>
    if st.explored.contains v then topoOuter adj innerFuel fuel vs st
    else
      match topoInner adj innerFuel [v] st with
      | .error e => .error e
      | .ok st1 => topoOuter adj innerFuel fuel vs st1

/-- networkx 1.x `topological_sort(G, nbunch)`: explores from the nodes of
`nbunch` (all nodes when `none`) and returns the reversed finish order; only
nodes reachable from `nbunch` appear. -/
def topologicalSort (g : NXDiGraph) (nbunch : Option (List String))
    (fuel : Nat) : Except TopoErr (List String) :=
  let vs := match nbunch with
    | some l => l
    | none => g.nodes
  match topoOuter (adjOf g) fuel fuel vs { seen := [], explored := [], order := [] } with
  | .error e => .error e
  | .ok st => .ok st.order

/-- Reachability used by `nx.has_path` (breadth-first from the source;
`has_path G u v` is true iff a directed path, possibly empty, leads from
`u` to `v`). -/
def reachAux (adj : String → List String) :
    Nat → List String → List String → String → Bool
  | 0, _, _, _ => false
  | _ + 1, [], _, _ => false
  | fuel + 1, u :: queue, visited, target =>
    if u = target then true
    else
      let nbrs := (adj u).filter (fun n => !visited.contains n)
      reachAux adj fuel (queue ++ nbrs) (visited ++ nbrs) target

/-- `nx.has_path(G, source, target)`. -/
def hasPath (g : NXDiGraph) (u v : String) (fuel : Nat) : Bool :=
  reachAux (adjOf g) fuel [u] [u] v

/-- `RuleGraph.has_dependency(rule_name, predecessor_rule_name)`: `KeyError`
when either rule is unknown, else `nx.has_path(graph, predecessor, rule)`. -/
def hasDependency (g : NXDiGraph) (ruleName predName : String) (fuel : Nat) :
    Except String Bool :=
  if !g.nodes.contains ruleName then .error "Rule not found"
  else if !g.nodes.contains predName then .error "Rule not found"
  else .ok (hasPath g predName ruleName fuel)

/-- `RuleGraph._construct_graph`: one node per rule keyed by `full_name`
(duplicate is an error), an edge from every rule-typed reference in
`srcs + deps` to the referencing rule (missing reference is an error),
then the `is_directed_acyclic_graph` check (a full `topological_sort` whose
`NetworkXUnfeasible` becomes the cycle error). -/
def constructGraph (rules : List PRule) (fuel : Nat) :
    Except String NXDiGraph := do
  let g0 ← rules.foldlM (fun (g : NXDiGraph) r =>
    if g.nodes.contains r.full_name then
      Except.error "Rule present multiple times"
    else Except.ok (addNode g r.full_name)) { nodes := [], adj := [] }
  let g1 ← rules.foldlM (fun (g : NXDiGraph) r =>
    (r.srcs ++ r.deps).foldlM (fun (g2 : NXDiGraph) dep =>
      if isRulePath dep then
        if g2.nodes.contains dep then Except.ok (addEdge g2 dep r.full_name)
        else Except.error "Rule not found"
      else Except.ok g2) g) g0
  match topologicalSort g1 none fuel with
  | .error .unfeasible => Except.error "Cycle detected in the rule graph"
  | .error .fuelOut => Except.error "fuel exhausted"
  | .ok _ => Except.ok g1

/-- `RuleGraph.calculate_rule_sequence`: per target, a `topological_sort` of
the reversed graph from that target gives `path`; a single-node path is
added as a node, a longer one with `sequence_graph.add_path(path)` (a chain
of edges).  The union is reversed and topologically sorted; rules are
returned in that order (here by full name). -/
def calculateRuleSequence (g : NXDiGraph) (targets : List String)
    (fuel : Nat) : Except String (List String) := do
  let rg := reverseGraph g
  let sg ← targets.foldlM (fun (sg : NXDiGraph) t =>
    if g.nodes.contains t then
      match topologicalSort rg (some [t]) fuel with
      | .error .unfeasible => Except.error "NetworkXUnfeasible"
      | .error .fuelOut => Except.error "fuel exhausted"
      | .ok path =>
        match path with
        | [p] => Except.ok (addNode sg p)
        | _ => Except.ok (addPath sg path)
    else Except.error "Target rule not found") { nodes := [], adj := [] }
  let rsg := reverseGraph sg
  match topologicalSort rsg none fuel with
  | .error .unfeasible => Except.error "NetworkXUnfeasible"
  | .error .fuelOut => Except.error "fuel exhausted"
  | .ok order => Except.ok order

/-- The C1 failing project: rules `a`, `b` (leaves), `m` (deps `:b`),
`k` (deps `:a`), and two targets `t1` (deps `:a`, `:m`) and `t2`
(deps `:b`, `:k`), in this insertion order. -/
def seqRules : List PRule :=
  [ { name := "a", full_name := ":a", srcs := [], deps := [] },
    { name := "b", full_name := ":b", srcs := [], deps := [] },
    { name := "m", full_name := ":m", srcs := [], deps := [":b"] },
    { name := "k", full_name := ":k", srcs := [], deps := [":a"] },
    { name := "t1", full_name := ":t1", srcs := [], deps := [":a", ":m"] },
    { name := "t2", full_name := ":t2", srcs := [], deps := [":b", ":k"] } ]

/-- The graph `RuleGraph._construct_graph` builds for `seqRules`. -/
def seqGraph : NXDiGraph :=
  { nodes := [":a", ":b", ":m", ":k", ":t1", ":t2"],
    adj := [(":a", [":k", ":t1"]), (":b", [":m", ":t2"]), (":m", [":t1"]),
            (":k", [":t2"]), (":t1", []), (":t2", [])] }

/-- C1 (code bug): on the acyclic project `seqRules` — graph construction
succeeds, which includes the `is_directed_acyclic_graph` check — and targets
`[:t1, :t2]`, both of which resolve (each also yields a correct
single-target sequence, as the last two conjuncts show),
`calculate_rule_sequence` raises `NetworkXUnfeasible` instead of returning a
topological order: the per-target `add_path` chains linearize incomparable
rules in conflicting orders, so their union acquires a cycle.  Adjacency
iteration order is modelled as insertion order; the hash-ordered dicts of a
real run can realize exactly this order. -/
theorem calculate_rule_sequence_spurious_cycle :
    constructGraph seqRules 1000 = .ok seqGraph ∧
    calculateRuleSequence seqGraph [":t1", ":t2"] 1000 = .error "NetworkXUnfeasible" ∧
    calculateRuleSequence seqGraph [":t1"] 1000 = .ok [":b", ":m", ":a", ":t1"] ∧
    calculateRuleSequence seqGraph [":t2"] 1000 = .ok [":a", ":k", ":b", ":t2"] :=
  ⟨rfl, rfl, rfl, rfl⟩

/-! ## RuleContext._gather_input_files (src/build/context.py) -/

/-- Rule data from src/build/module.py as the rule contexts and the driver
use it: the bound `path`, `srcs`, `deps` and the optional `src_filter`. -/
structure Rule where
  path : String
  srcs : List String
  deps : List String
  src_filter : Option String
deriving DecidableEq

/-- Glob matching as `fnmatch.fnmatch` behaves on the patterns the build
uses: `*` matches any run of characters, `?` any single character, anything
else matches itself (bracket classes are not used by the build core and are
omitted; posix `normcase` is the identity).  Each recursive call shrinks
the combined length of name and pattern, so that much fuel suffices. -/
def fnmAux : Nat → List Char → List Char → Bool
  | 0, _, _ => false
  | _ + 1, n, [] => n.isEmpty
  | fuel + 1, n, c :: ps =>
    if c = '*' then
      fnmAux fuel n ps ||
        (match n with
         | [] => false
         | _ :: ns => fnmAux fuel ns (c :: ps))
    else
      match n with
      | [] => false
      | d :: ns => (c = '?' || c = d) && fnmAux fuel ns ps

/-- `fnmatch.fnmatch(name, pattern)`. -/
def fnmatch (nameStr pat : String) : Bool :=
  fnmAux (nameStr.length + pat.length + 1) nameStr.toList pat.toList

/-- What `_gather_input_files` consumes from the build: rule-path resolution
to the referenced rule's recorded outputs (`none` = `resolve_rule` found no
rule, `some none` = rule known but no context yet, `some (some outs)` = an
executed context with `all_output_files = outs`), and filesystem glob
expansion of a joined pattern. -/
structure GatherEnv where
  ruleOutputs : String → Option (Option (List String))
  glob : String → List String
  basePath : String

/-- `os.path.join(base, rel)` for the relative patterns the build uses. -/
def joinPath (base rel : String) : String := base ++ "/" ++ rel

/-- `set.add` on an insertion-ordered list model of a Python set. -/
def setAdd (s : List String) (x : String) : List String :=
  if s.contains x then s else s ++ [x]

/-- The body of the `for file_path in src_items` loop: `src_filter` (when
set) drops non-matching paths — note the source applies it to every item,
whichever branch produced it — and the rest are added to the input set. -/
def filterAdd (flt : Option String) (s : List String) (f : String) : List String :=
  match flt with
  | some p => if !fnmatch f p then s else setAdd s f
  | none => setAdd s f

/-- One `src` entry of `_gather_input_files`: a rule path substitutes the
referenced rule's `all_output_files` (`KeyError` if unknown, `RuntimeError`
if not yet executed); any other entry is expanded as a glob relative to the
parent module's directory.  Every produced item then passes through
`filterAdd`. -/
def gatherOne (env : GatherEnv) (flt : Option String) (acc : List String)
    (src : String) : Except String (List String) :=
  match
    (if isRulePath src then
      match env.ruleOutputs src with
      | none => Except.error "Source rule not found"
      | some none => Except.error "Source rule not yet executed"
      | some (some outs) => Except.ok outs
    else
      Except.ok (env.glob (joinPath env.basePath src))) with
  | .error e => .error e
  | .ok srcItems => .ok (srcItems.foldl (filterAdd flt) acc)

/-- The `for src in self.rule.srcs` loop of `_gather_input_files`. -/
def gatherFold (env : GatherEnv) (flt : Option String) :
    List String → List String → Except String (List String)
  | [], acc => .ok acc
  | src :: rest, acc =>
    match gatherOne env flt acc src with
    | .error e => .error e
    | .ok acc2 => gatherFold env flt rest acc2

/-- `RuleContext._gather_input_files` (the final `list(input_paths)` is the
insertion-ordered set itself in this model). -/
def gatherInputFiles (env : GatherEnv) (r : Rule) : Except String (List String) :=
  gatherFold env r.src_filter r.srcs []

theorem mem_setAdd (s : List String) (x f : String) :
    f ∈ setAdd s x ↔ f ∈ s ∨ f = x := by
  by_cases hc : s.contains x
  · have hx : x ∈ s := by
      simpa using hc
    simp only [setAdd, hc, if_true]
    constructor
    · exact fun h => Or.inl h
    · rintro (h | rfl)
      · exact h
      · exact hx
  · have hx : x ∉ s := by simpa using hc
    simp only [setAdd, hc, if_false, Bool.false_eq_true]
    simp [or_comm]

theorem mem_filterAdd_some (p : String) (s : List String) (x f : String)
    (h : f ∈ filterAdd (some p) s x) : f ∈ s ∨ (f = x ∧ fnmatch f p = true) := by
  simp only [filterAdd] at h
  by_cases hm : fnmatch x p
  · rw [if_neg (by simp [hm])] at h
    rcases (mem_setAdd s x f).mp h with h1 | h1
    · exact Or.inl h1
    · exact Or.inr ⟨h1, h1 ▸ hm⟩
  · rw [if_pos (by simp [hm])] at h
    exact Or.inl h

theorem subset_filterAdd (flt : Option String) (s : List String) (x f : String)
    (h : f ∈ s) : f ∈ filterAdd flt s x := by
  cases flt with
  | none => exact (mem_setAdd s x f).mpr (Or.inl h)
  | some p =>
    simp only [filterAdd]
    by_cases hm : !fnmatch x p
    · rw [if_pos hm]
      exact h
    · rw [if_neg hm]
      exact (mem_setAdd s x f).mpr (Or.inl h)

theorem mem_itemFold (p : String) (items : List String) (acc : List String)
    (f : String) (h : f ∈ items.foldl (filterAdd (some p)) acc) :
    f ∈ acc ∨ fnmatch f p = true := by
  induction items generalizing acc with
  | nil => exact Or.inl h
  | cons x xs ih =>
    rcases ih (filterAdd (some p) acc x) h with h1 | h1
    · rcases mem_filterAdd_some p acc x f h1 with h2 | h2
      · exact Or.inl h2
      · exact Or.inr h2.2
    · exact Or.inr h1

theorem subset_itemFold (flt : Option String) (items : List String)
    (acc : List String) (f : String) (h : f ∈ acc) :
    f ∈ items.foldl (filterAdd flt) acc := by
  induction items generalizing acc with
  | nil => exact h
  | cons x xs ih => exact ih _ (subset_filterAdd flt acc x f h)

theorem mem_itemFold_of_match (p : String) (items : List String)
    (acc : List String) (f : String) (hf : f ∈ items)
    (hm : fnmatch f p = true) : f ∈ items.foldl (filterAdd (some p)) acc := by
  induction items generalizing acc with
  | nil => cases hf
  | cons x xs ih =>
    rcases List.mem_cons.mp hf with rfl | h1
    · rw [List.foldl_cons]
      apply subset_itemFold
      simp only [filterAdd, hm]
      rw [if_neg (by simp)]
      exact (mem_setAdd acc f f).mpr (Or.inr rfl)
    · rw [List.foldl_cons]
      exact ih _ h1

theorem gatherFold_filtered (env : GatherEnv) (p : String)
    (srcs : List String) (acc out : List String)
    (hrun : gatherFold env (some p) srcs acc = .ok out) :
    (∀ f ∈ out, f ∈ acc ∨ fnmatch f p = true) ∧
    (∀ f ∈ acc, f ∈ out) ∧
    (∀ src ∈ srcs, isRulePath src = true →
      ∀ outs, env.ruleOutputs src = some (some outs) →
        ∀ f ∈ outs, fnmatch f p = true → f ∈ out) := by
  induction srcs generalizing acc with
  | nil =>
    simp only [gatherFold, Except.ok.injEq] at hrun
    subst hrun
    exact ⟨fun f hf => Or.inl hf, fun f hf => hf, fun src h => absurd h (by simp)⟩
  | cons src rest ih =>
    simp only [gatherFold] at hrun
    cases hone : gatherOne env (some p) acc src with
    | error e => rw [hone] at hrun ; exact Except.noConfusion hrun
    | ok acc2 =>
      rw [hone] at hrun
      obtain ⟨h1, h2, h3⟩ := ih acc2 hrun
      have hacc2 : ∀ f ∈ acc2, f ∈ acc ∨ fnmatch f p = true := by
        intro f hf
        simp only [gatherOne] at hone
        cases hrp : isRulePath src with
        | true =>
          rw [if_pos (by simp [hrp])] at hone
          cases hro : env.ruleOutputs src with
          | none => rw [hro] at hone ; exact Except.noConfusion hone
          | some o =>
            cases o with
            | none => rw [hro] at hone ; exact Except.noConfusion hone
            | some outs =>
              rw [hro] at hone
              simp only [Except.ok.injEq] at hone
              subst hone
              exact mem_itemFold p outs acc f hf
        | false =>
          rw [if_neg (by simp [hrp])] at hone
          simp only [Except.ok.injEq] at hone
          subst hone
          exact mem_itemFold p _ acc f hf
      refine ⟨?_, ?_, ?_⟩
      · intro f hf
        rcases h1 f hf with hm | hm
        · exact hacc2 f hm
        · exact Or.inr hm
      · intro f hf
        apply h2
        simp only [gatherOne] at hone
        cases hrp : isRulePath src with
        | true =>
          rw [if_pos (by simp [hrp])] at hone
          cases hro : env.ruleOutputs src with
          | none => rw [hro] at hone ; exact Except.noConfusion hone
          | some o =>
            cases o with
            | none => rw [hro] at hone ; exact Except.noConfusion hone
            | some outs =>
              rw [hro] at hone
              simp only [Except.ok.injEq] at hone
              subst hone
              exact subset_itemFold (some p) outs acc f hf
        | false =>
          rw [if_neg (by simp [hrp])] at hone
          simp only [Except.ok.injEq] at hone
          subst hone
          exact subset_itemFold (some p) _ acc f hf
      · intro s hs hrp outs hro f hf hm
        rcases List.mem_cons.mp hs with rfl | hrest
        · apply h2
          simp only [gatherOne] at hone
          rw [if_pos (by simp [hrp]), hro] at hone
          simp only [Except.ok.injEq] at hone
          subst hone
          exact mem_itemFold_of_match p outs acc f hf hm
        · exact h3 s hrest hrp outs hro f hf hm

/-- C5 amended: when a rule has a `src_filter`, `_gather_input_files`
applies it to every entry — including files substituted from another rule's
output list, not only file/glob sources: every gathered file matches the
filter, and an output of a referenced source rule is gathered iff it
matches. -/
theorem gather_filter_applies_to_rule_outputs (env : GatherEnv) (r : Rule)
    (p : String) (hf : r.src_filter = some p) (out : List String)
    (hrun : gatherInputFiles env r = .ok out) :
    (∀ f ∈ out, fnmatch f p = true) ∧
    (∀ src ∈ r.srcs, isRulePath src = true →
      ∀ outs, env.ruleOutputs src = some (some outs) →
        ∀ f ∈ outs, fnmatch f p = true → f ∈ out) := by
  rw [gatherInputFiles, hf] at hrun
  obtain ⟨h1, _, h3⟩ := gatherFold_filtered env p r.srcs [] out hrun
  refine ⟨?_, h3⟩
  intro f hfo
  rcases h1 f hfo with h | h
  · cases h
  · exact h

/-- The C5 environment: source rule `:a` has executed with a single output
`x.md`; no real files exist. -/
def gatherEnvC5 : GatherEnv :=
  { ruleOutputs := fun s => if s = ":a" then some (some ["x.md"]) else none,
    glob := fun _ => [],
    basePath := "mod" }

/-- The C5 rule: `srcs = [":a"]` with `src_filter = "*.txt"`. -/
def ruleC5 : Rule :=
  { path := ":b", srcs := [":a"], deps := [], src_filter := some "*.txt" }

/-- Counterexample to C5 as stated: the referenced rule's output `x.md` does
not match the filter and is dropped from `all_input_files` (the gather
returns an empty list), although the claim requires every output of the
referenced rule to be included regardless of the filter. -/
theorem gather_drops_unmatched_rule_output :
    gatherEnvC5.ruleOutputs ":a" = some (some ["x.md"]) ∧
    fnmatch "x.md" "*.txt" = false ∧
    gatherInputFiles gatherEnvC5 ruleC5 = .ok [] :=
  ⟨rfl, rfl, rfl⟩

/-- Witness for the amended C5 theorem: with outputs `x.md` and `y.txt` from
the source rule, the gather keeps exactly the matching `y.txt`. -/
theorem gather_filter_applies_to_rule_outputs_witness :
    gatherInputFiles
      { ruleOutputs := fun s => if s = ":a" then some (some ["x.md", "y.txt"]) else none,
        glob := fun _ => [], basePath := "mod" } ruleC5 = .ok ["y.txt"] ∧
    (∀ f ∈ ["y.txt"], fnmatch f "*.txt" = true) ∧
    ("y.txt" ∈ ["y.txt"]) := by
  refine ⟨rfl, ?_, by simp⟩
  have h := gather_filter_applies_to_rule_outputs
    { ruleOutputs := fun s => if s = ":a" then some (some ["x.md", "y.txt"]) else none,
      glob := fun _ => [], basePath := "mod" } ruleC5 "*.txt" rfl ["y.txt"] rfl
  exact h.1

/-! ## BuildContext driver (src/build/context.py)

`BuildContext.execute` is event-driven: after the initial priming loop
(`for rule in rule_sequence: _pump()`), progress happens in the `Deferred`
subscribers `_rule_callback` / `_rule_errback`, which fire when a rule body
resolves its completion deferred.  The embedding makes the state explicit
(`DriverState`), makes one `_pump` call a function on that state (a
cascading failure re-enters `_pump(False)` synchronously — the recursion in
`pumpAux`), and models rule completions as external events (`stepEvent`).
Rule bodies (`begin` overrides) are arbitrary code, so a completion event
may arrive at any time for any running rule; `Reachable` closes the initial
state under pumps and events.  The graph query `has_dependency` appears as
the parameter `dep`; `ValidSeq` states the properties of a sequence computed
by `calculate_rule_sequence` that the proofs use. -/

/-- `context.Status`. -/
inductive Status where
  | waiting
  | running
  | succeeded
  | failed
deriving DecidableEq

/-- Observable `RuleContext` state: `status`, whether `begin` ran (`begun`
records which of `begin` / `cascade_failure` the issuing took), and the
`exception` argument recorded by `_fail`. -/
structure RuleCtx where
  status : Status
  begun : Bool
  exn : Option String
deriving DecidableEq

/-- The mutable state of one `BuildContext.execute` call: `remaining_rules`,
`in_flight_rules`, `any_failed`, the `rule_contexts` dict (association list
in insertion order) and the resolution of the returned `main_deferred`
(`none` pending, `some true` callback, `some false` errback). -/
structure DriverState where
  remaining : List Rule
  inFlight : List Rule
  anyFailed : Bool
  ctxs : List (String × RuleCtx)
  mainDone : Option Bool
deriving DecidableEq

/-- `rule_contexts` lookup. -/
def ctxOf (s : DriverState) (p : String) : Option RuleCtx := pyGet s.ctxs p

/-- The rule-path entries of `srcs + deps` — the direct predecessors a
`RuleContext` consults.  (Reference strings are modelled as already equal to
the referenced rule's bound path, which is what `project.resolve_rule`
returns for them.) -/
def rulePreds (r : Rule) : List String :=
  (r.srcs ++ r.deps).filter (fun d => isRulePath d)

/-- `RuleContext.check_predecessor_failures`: true iff some direct
predecessor's context is in `Status.FAILED`.  (In the source a predecessor
without a context would crash on `None.status`; under sequences produced by
`calculate_rule_sequence` every predecessor has a context by the time this
runs — the invariants below prove it — so that branch is modelled as
not-failed.) -/
def checkPredecessorFailures (s : DriverState) (r : Rule) : Bool :=
  (rulePreds r).any (fun dp =>
    match ctxOf s dp with
    | some c => decide (c.status = Status.failed)
    | none => false)

/-- `list.remove` on `in_flight_rules` (removes the first element with the
given path; rule objects are identified by their unique paths). -/
def removeRule : List Rule → String → List Rule
  | [], _ => []
  | r :: rest, p => if r.path = p then rest else r :: removeRule rest p

/-- The flag/queue update at the top of `_pump`: record `any_failed` and,
under `stop_on_error`, clear `remaining_rules` after a failure. -/
def pumpUpdate (stopOnError : Bool) (prevOk : Bool) (s : DriverState) :
    DriverState :=
  { s with anyFailed := s.anyFailed || !prevOk,
           remaining := if !prevOk && stopOnError then [] else s.remaining }

/-- The context `_execute_rule` leaves behind when `begin` runs: the default
`begin` marks the rule `RUNNING`. -/
def beginCtx : RuleCtx :=
  { status := Status.running, begun := true, exn := none }

/-- The context `cascade_failure` leaves behind: `_fail()` with no
exception, `begin` never invoked. -/
def cascadeCtx : RuleCtx :=
  { status := Status.failed, begun := false, exn := none }

/-- The pop-and-append of `_pump` right before `_issue_rule(next)`
(`remaining_rules.popleft()`; `in_flight_rules.append(rule)`). -/
def issueState (s1 : DriverState) (next : Rule) (rest : List Rule) :
    DriverState :=
  { s1 with remaining := rest, inFlight := s1.inFlight ++ [next] }

/-- The state after `_execute_rule` took the cascade branch: the fresh
context records `cascadeCtx`, and the immediately-fired `_rule_errback`
removed the rule from `in_flight_rules` again. -/
def cascadeState (s2 : DriverState) (next : Rule) : DriverState :=
  { s2 with ctxs := s2.ctxs ++ [(next.path, cascadeCtx)],
            inFlight := removeRule s2.inFlight next.path }

/-- The state after `_execute_rule` invoked `begin`: the fresh context
records `beginCtx` and the rule stays in flight until its deferred
resolves. -/
def beginState (s2 : DriverState) (next : Rule) : DriverState :=
  { s2 with ctxs := s2.ctxs ++ [(next.path, beginCtx)] }

/-- The body of one `_pump(previous_succeeded)` call, together with the
synchronous `_issue_rule` / `_execute_rule` work it performs.  A cascading
failure (`cascade_failure`) resolves the fresh rule's deferred before the
driver registers its subscribers, so `add_errback_fn` fires `_rule_errback`
immediately: the rule leaves `in_flight_rules` again and `_pump(False)`
re-enters — the `recur` parameter (tied to the fueled recursion in
`pumpAux`).  Note the `else` branch of the source tests only
`len(remaining_rules)`: the main deferred is resolved as soon as the queue
is empty, even while rules are still in flight. -/
def pumpCore (dep : String → String → Bool) (stopOnError : Bool)
    (recur : Bool → DriverState → DriverState) (prevOk : Bool)
    (s : DriverState) : DriverState :=
  if s.mainDone.isSome then s
  else
    let s1 := pumpUpdate stopOnError prevOk s
    match s1.remaining with
    | [] => { s1 with mainDone := some (!s1.anyFailed) }
    | next :: rest =>
      if s1.inFlight.any (fun f => dep next.path f.path) then s1
      else
        let s2 := issueState s1 next rest
        if checkPredecessorFailures s2 next then
          recur false (cascadeState s2 next)
        else
          beginState s2 next

/-- `_pump` as a fueled recursion through `pumpCore`.  Each re-entry pops
one rule off `remaining`, so `remaining.length + 1` fuel suffices. -/
def pumpAux (dep : String → String → Bool) (stopOnError : Bool) :
    Nat → Bool → DriverState → DriverState
  | 0, _, s => s
  | fuel + 1, prevOk, s =>
    pumpCore dep stopOnError (pumpAux dep stopOnError fuel) prevOk s

/-- `_pump` with enough fuel for every synchronous cascade. -/
def pump (dep : String → String → Bool) (stopOnError : Bool) (prevOk : Bool)
    (s : DriverState) : DriverState :=
  pumpAux dep stopOnError (s.remaining.length + 1) prevOk s

/-- A rule-completion event: the rule body resolves its deferred with
success or failure (for `_fail`, with the recorded exception). -/
structure Event where
  path : String
  ok : Bool
  exn : Option String

/-- The terminal context `_succeed` / `_fail` records when the rule's
deferred resolves: success keeps the context and marks `SUCCEEDED`; failure
marks `FAILED` and stores the exception argument. -/
def eventCtx (e : Event) (c : RuleCtx) : RuleCtx :=
  if e.ok then { c with status := Status.succeeded }
  else { status := Status.failed, begun := c.begun, exn := e.exn }

/-- The state right after `_succeed` / `_fail` updated the rule's context
and `_rule_callback` / `_rule_errback` removed it from `in_flight_rules`
(just before the re-entrant `_pump`). -/
def eventState (s : DriverState) (e : Event) (c : RuleCtx) : DriverState :=
  { s with ctxs := pySet s.ctxs e.path (eventCtx e c),
           inFlight := removeRule s.inFlight e.path }

/-- Delivery of a completion event: `_rule_callback` / `_rule_errback`
remove the rule from `in_flight_rules` and re-enter `_pump` with the
outcome; the rule's own `_succeed` / `_fail` had just recorded the terminal
status on its context.  An event that does not name a running in-flight
rule is a no-op (a deferred resolves only once, and only rules whose
`begin` ran have a pending deferred). -/
def stepEvent (dep : String → String → Bool) (stopOnError : Bool)
    (s : DriverState) (e : Event) : DriverState :=
  if s.inFlight.any (fun r => r.path = e.path) then
    match ctxOf s e.path with
    | some c =>
      if c.status = Status.running then
        pump dep stopOnError e.ok (eventState s e c)
      else s
    | none => s
  else s

/-- The state of `execute` once the rule sequence has been computed. -/
def initState (sq : List Rule) : DriverState :=
  { remaining := sq, inFlight := [], anyFailed := false, ctxs := [],
    mainDone := none }

/-- States reachable while `execute` runs over sequence `sq`: the initial
state, closed under `_pump()` calls with `previous_succeeded` (the priming
loop performs one per sequence entry; extra pumps only re-check) and under
rule-completion events. -/
inductive Reachable (dep : String → String → Bool) (stopOnError : Bool)
    (sq : List Rule) : DriverState → Prop where
  | init : Reachable dep stopOnError sq (initState sq)
  | pump {s} : Reachable dep stopOnError sq s →
      Reachable dep stopOnError sq (pump dep stopOnError true s)
  | step {s} (e : Event) : Reachable dep stopOnError sq s →
      Reachable dep stopOnError sq (stepEvent dep stopOnError s e)

/-- Properties of a rule sequence `sq` as `calculate_rule_sequence` produces
it for an acyclic project, phrased against the graph query
`dep = has_dependency`: distinct paths; topological order (an entry never
`dep`-depends on a distinct entry at its own position or later); closure
under direct predecessors; `dep` holds of direct predecessors; and `dep`
(transitive reachability) decomposes through a direct predecessor. -/
structure ValidSeq (dep : String → String → Bool) (sq : List Rule) : Prop where
  nodup : (sq.map Rule.path).Nodup
  topo : ∀ pre b post, sq = pre ++ b :: post → ∀ a ∈ b :: post,
    dep b.path a.path = true → a.path = b.path
  closed : ∀ r ∈ sq, ∀ p ∈ rulePreds r, ∃ a ∈ sq, a.path = p
  predDep : ∀ r ∈ sq, ∀ p ∈ rulePreds r, dep r.path p = true
  decomp : ∀ b ∈ sq, ∀ a ∈ sq, dep b.path a.path = true → a.path ≠ b.path →
    ∃ p ∈ rulePreds b, dep p a.path = true
  no_self : ∀ r ∈ sq, r.path ∉ rulePreds r

/-- The topological-order field of `ValidSeq` in its index form (used to
check concrete sequences by `decide`). -/
theorem ValidSeq.topo_of_fin (dep : String → String → Bool) (sq : List Rule)
    (h : ∀ i j : Fin sq.length, dep (sq.get i).path (sq.get j).path = true →
      (sq.get i).path ≠ (sq.get j).path → (j : Nat) < (i : Nat)) :
    ∀ pre b post, sq = pre ++ b :: post → ∀ a ∈ b :: post,
      dep b.path a.path = true → a.path = b.path := by
  intro pre b post hsq a ha hdep
  by_contra hne
  subst hsq
  obtain ⟨k, hk⟩ := List.mem_iff_get.mp ha
  have hib : pre.length < (pre ++ b :: post).length := by
    rw [List.length_append, List.length_cons]
    omega
  have hja : pre.length + (k : Nat) < (pre ++ b :: post).length := by
    have := k.isLt
    rw [List.length_append]
    omega
  have hgetb : (pre ++ b :: post).get ⟨pre.length, hib⟩ = b := by
    rw [List.get_eq_getElem]
    rw [List.getElem_append_right (Nat.le_refl _)]
    simp
  have hgeta : (pre ++ b :: post).get ⟨pre.length + (k : Nat), hja⟩ = a := by
    have hk2 : (k : Nat) < (b :: post).length := k.isLt
    have hja2 : (k : Nat) + pre.length < (pre ++ b :: post).length := by
      rw [List.length_append]
      omega
    have h2 : (pre ++ b :: post)[(k : Nat) + pre.length]
        = (b :: post)[(k : Nat)] := (List.getElem_append_right' pre hk2).symm
    have h3 : (b :: post)[(k : Nat)] = a := by
      rw [← hk]
      simp [List.get_eq_getElem]
    rw [List.get_eq_getElem]
    simp only [Fin.val_mk]
    rw [← h3, ← h2]
    congr 1
    omega
  have hcon := h ⟨pre.length, hib⟩ ⟨pre.length + (k : Nat), hja⟩
    (by rw [hgetb, hgeta] ; exact hdep)
    (by rw [hgetb, hgeta] ; exact fun he => hne he.symm)
  simp only [Fin.val_mk] at hcon
  omega

/-! ### Association-list and in-flight-list lemmas -/

theorem pyGet_append {β : Type} (l1 l2 : List (String × β)) (k : String) :
    pyGet (l1 ++ l2) k = match pyGet l1 k with
      | some v => some v
      | none => pyGet l2 k := by
  induction l1 with
  | nil => simp [pyGet]
  | cons p rest ih =>
    obtain ⟨k0, v0⟩ := p
    by_cases he : k0 = k <;> simp [pyGet, he, ih]

theorem pyGet_eq_none_iff {β : Type} (m : List (String × β)) (k : String) :
    pyGet m k = none ↔ k ∉ m.map Prod.fst := by
  induction m with
  | nil => simp [pyGet]
  | cons p rest ih =>
    obtain ⟨k0, v0⟩ := p
    by_cases he : k0 = k
    · subst he
      simp [pyGet]
    · rw [pyGet, if_neg he, ih]
      simp only [List.map_cons, List.mem_cons, not_or]
      constructor
      · exact fun hm => ⟨fun hk => he hk.symm, hm⟩
      · exact fun hm => hm.2

theorem mem_keys_of_pyGet_some {β : Type} (m : List (String × β)) (k : String)
    (v : β) (h : pyGet m k = some v) : k ∈ m.map Prod.fst := by
  by_contra hmem
  rw [(pyGet_eq_none_iff m k).mpr hmem] at h
  exact Option.noConfusion h

theorem pyGet_some_of_mem_keys {β : Type} (m : List (String × β)) (k : String)
    (h : k ∈ m.map Prod.fst) : ∃ v, pyGet m k = some v := by
  cases hv : pyGet m k with
  | none => exact absurd h ((pyGet_eq_none_iff m k).mp hv)
  | some v => exact ⟨v, rfl⟩

theorem pyGet_pySet_ne {β : Type} (m : List (String × β)) (k k' : String)
    (v : β) (h : k' ≠ k) : pyGet (pySet m k v) k' = pyGet m k' := by
  induction m with
  | nil =>
    simp only [pySet, pyGet]
    rw [if_neg (fun he => h he.symm)]
  | cons p rest ih =>
    obtain ⟨k0, v0⟩ := p
    by_cases he : k0 = k
    · subst he
      rw [pySet, if_pos rfl, pyGet, pyGet,
        if_neg (fun hx => h hx.symm), if_neg (fun hx => h hx.symm)]
    · rw [pySet, if_neg he, pyGet, pyGet]
      by_cases he2 : k0 = k' <;> simp [he2, ih]

theorem pySet_keys {β : Type} (m : List (String × β)) (k : String) (v : β)
    (h : k ∈ m.map Prod.fst) : (pySet m k v).map Prod.fst = m.map Prod.fst := by
  induction m with
  | nil => simp at h
  | cons p rest ih =>
    obtain ⟨k0, v0⟩ := p
    by_cases he : k0 = k
    · subst he
      simp [pySet]
    · simp only [List.map_cons] at h
      rcases List.mem_cons.mp h with h1 | h1
      · exact absurd h1.symm he
      · rw [pySet, if_neg he]
        simp [ih h1]

theorem removeRule_sublist (l : List Rule) (p : String) :
    (removeRule l p).Sublist l := by
  induction l with
  | nil => simp [removeRule]
  | cons r rest ih =>
    by_cases he : r.path = p
    · simp only [removeRule, he, if_true]
      exact List.sublist_cons_self r rest
    · simp only [removeRule, he, if_false]
      exact List.Sublist.cons₂ r ih

theorem mem_of_mem_removeRule {l : List Rule} {p : String} {r : Rule}
    (h : r ∈ removeRule l p) : r ∈ l :=
  (removeRule_sublist l p).subset h

theorem mem_removeRule_of_ne {l : List Rule} {p : String} {r : Rule}
    (hr : r ∈ l) (hne : r.path ≠ p) : r ∈ removeRule l p := by
  induction l with
  | nil => cases hr
  | cons x rest ih =>
    by_cases he : x.path = p
    · simp only [removeRule, he, if_true]
      rcases List.mem_cons.mp hr with rfl | h1
      · exact absurd he hne
      · exact h1
    · simp only [removeRule, he, if_false]
      rcases List.mem_cons.mp hr with rfl | h1
      · exact List.mem_cons_self r _
      · exact List.mem_cons_of_mem x (ih h1)

theorem path_ne_of_mem_removeRule {l : List Rule} {p : String} {r : Rule}
    (hnd : (l.map Rule.path).Nodup) (hr : r ∈ removeRule l p) : r.path ≠ p := by
  induction l with
  | nil => cases hr
  | cons x rest ih =>
    simp only [List.map_cons, List.nodup_cons] at hnd
    by_cases he : x.path = p
    · subst he
      rw [removeRule, if_pos rfl] at hr
      intro hrp
      exact hnd.1 (hrp ▸ List.mem_map_of_mem Rule.path hr)
    · rw [removeRule, if_neg he] at hr
      rcases List.mem_cons.mp hr with rfl | h1
      · exact he
      · exact ih hnd.2 h1

theorem nodup_removeRule {l : List Rule} {p : String}
    (h : (l.map Rule.path).Nodup) : ((removeRule l p).map Rule.path).Nodup :=
  List.Nodup.sublist (List.Sublist.map Rule.path (removeRule_sublist l p)) h

theorem removeRule_append_last (l : List Rule) (r : Rule)
    (h : ∀ x ∈ l, x.path ≠ r.path) : removeRule (l ++ [r]) r.path = l := by
  induction l with
  | nil => simp [removeRule]
  | cons x rest ih =>
    have hx := h x (List.mem_cons_self x rest)
    rw [List.cons_append, removeRule, if_neg hx,
      ih (fun y hy => h y (List.mem_cons_of_mem x hy))]

theorem pyGet_append_single {β : Type} (m : List (String × β)) (p0 q : String)
    (c0 : β) : pyGet (m ++ [(p0, c0)]) q =
      match pyGet m q with
      | some c => some c
      | none => if p0 = q then some c0 else none := by
  rw [pyGet_append]
  cases pyGet m q with
  | some c => rfl
  | none => rfl

theorem pyGet_append_old {β : Type} {m : List (String × β)} {q : String}
    {c : β} (p0 : String) (c0 : β) (h : pyGet m q = some c) :
    pyGet (m ++ [(p0, c0)]) q = some c := by
  rw [pyGet_append_single, h]

theorem pyGet_append_new {β : Type} {m : List (String × β)} {p0 : String}
    (c0 : β) (h : pyGet m p0 = none) :
    pyGet (m ++ [(p0, c0)]) p0 = some c0 := by
  rw [pyGet_append_single, h]
  simp

theorem pyGet_append_cases {β : Type} {m : List (String × β)} {p0 q : String}
    {c0 c : β} (h : pyGet (m ++ [(p0, c0)]) q = some c) :
    pyGet m q = some c ∨ (q = p0 ∧ c = c0 ∧ pyGet m q = none) := by
  rw [pyGet_append_single] at h
  cases hm : pyGet m q with
  | some c1 =>
    rw [hm] at h
    exact Or.inl (by simpa using h)
  | none =>
    rw [hm] at h
    by_cases he : p0 = q
    · rw [if_pos he] at h
      exact Or.inr ⟨he.symm, (by simpa using h.symm), rfl⟩
    · rw [if_neg he] at h
      exact Option.noConfusion h

/-! ### Driver invariants -/

/-- While the main deferred is unresolved, a failed rule context implies
`any_failed`.  (During a pump this is briefly false between a cascade
recording `FAILED` and the `_pump(False)` re-entry, which is why the
preservation lemma threads it conditionally on the pump's
`previous_succeeded` argument.  After resolution it can fail for good:
`_pump` early-returns on `main_deferred.is_done()` before touching
`any_failed`, so a late failure of a still-in-flight rule is never
recorded.) -/
def FailedSound (s : DriverState) : Prop :=
  s.mainDone = none →
  ∀ p c, ctxOf s p = some c → c.status = Status.failed → s.anyFailed = true

/-- Once every rule of the (nonempty) sequence has a terminal context, the
main deferred has been resolved. -/
def AllDoneResolved (sq : List Rule) (s : DriverState) : Prop :=
  sq ≠ [] →
  (∀ r ∈ sq, ∃ c, ctxOf s r.path = some c ∧
    (c.status = Status.succeeded ∨ c.status = Status.failed)) →
  s.mainDone.isSome = true

/-- The driver invariant: the issued rules (`rule_contexts` keys) form a
prefix of the sequence in order and `remaining_rules` is the matching
suffix (or was cleared by `stop_on_error` after a failure); in-flight rules
are exactly the rules with a `RUNNING` context; every context is `RUNNING`
or terminal, with non-begun contexts being exception-free cascades;
`any_failed` tracks failed contexts; a resolved main deferred pins down the
outcome as of resolution time and an empty `remaining_rules` queue — but
not an empty in-flight list: the source resolves as soon as the queue
empties, with rules possibly still running; predecessors of issued rules
are terminal
(claim C2); and predecessors of begun rules all succeeded (claim C4). -/
structure InvBase (dep : String → String → Bool) (sq : List Rule)
    (s : DriverState) : Prop where
  split : ∃ done rest, sq = done ++ rest ∧
    s.ctxs.map Prod.fst = done.map Rule.path ∧
    (s.remaining = rest ∨ (s.remaining = [] ∧ (rest = [] ∨ s.anyFailed = true)))
  inflight_ctx : ∀ r ∈ s.inFlight, ∃ c, ctxOf s r.path = some c ∧
    c.status = Status.running
  inflight_nodup : (s.inFlight.map Rule.path).Nodup
  running_inflight : ∀ p c, ctxOf s p = some c → c.status = Status.running →
    ∃ r ∈ s.inFlight, r.path = p
  ctx_shape : ∀ p c, ctxOf s p = some c →
    (c.status = Status.running ∧ c.begun = true) ∨
    (c.status = Status.succeeded ∧ c.begun = true) ∨
    (c.status = Status.failed ∧ (c.begun = true ∨ (c.begun = false ∧ c.exn = none)))
  anyFailed_failed : s.anyFailed = true →
    ∃ p c, ctxOf s p = some c ∧ c.status = Status.failed
  main_res : ∀ b, s.mainDone = some b →
    b = !s.anyFailed ∧ s.remaining = []
  preds_terminal : ∀ p c, ctxOf s p = some c → ∀ a ∈ sq, dep p a.path = true →
    a.path ≠ p → ∃ ca, ctxOf s a.path = some ca ∧
      (ca.status = Status.succeeded ∨ ca.status = Status.failed)
  preds_succeeded : ∀ p c, ctxOf s p = some c → c.begun = true → ∀ a ∈ sq,
    dep p a.path = true → a.path ≠ p →
    ∃ ca, ctxOf s a.path = some ca ∧ ca.status = Status.succeeded

/-- The full invariant carried along `Reachable`. -/
structure Inv (dep : String → String → Bool) (sq : List Rule)
    (s : DriverState) : Prop where
  base : InvBase dep sq s
  failedSound : FailedSound s
  allDone : AllDoneResolved sq s

theorem fresh_head {dep : String → String → Bool} {sq done rest2 : List Rule}
    {next : Rule} (V : ValidSeq dep sq)
    (hsq : sq = done ++ next :: rest2) : next.path ∉ done.map Rule.path := by
  have hnd := V.nodup
  rw [hsq, List.map_append] at hnd
  have hdisj := (List.nodup_append.mp hnd).2.2
  intro hmem
  exact hdisj hmem (by simp)

theorem mem_done_of_path {dep : String → String → Bool}
    {sq done rst : List Rule} {a : Rule} (V : ValidSeq dep sq)
    (hsq : sq = done ++ rst) (ha : a ∈ sq)
    (hp : a.path ∈ done.map Rule.path) : a ∈ done := by
  rw [hsq] at ha
  rcases List.mem_append.mp ha with h | h
  · exact h
  · exfalso
    have hnd := V.nodup
    rw [hsq, List.map_append] at hnd
    have hdisj := (List.nodup_append.mp hnd).2.2
    exact hdisj hp (List.mem_map_of_mem Rule.path h)

/-- When `_pump` is about to issue the head of `remaining` (its blocked check
found no in-flight dependency), every transitive predecessor of the head
already has a terminal context: predecessors sit in the issued prefix by
topological order, and a `RUNNING` one would be in flight and block. -/
theorem preds_of_head_terminal {dep : String → String → Bool} {sq : List Rule}
    (V : ValidSeq dep sq) {s1 : DriverState} (B : InvBase dep sq s1)
    {done rest2 : List Rule} {next : Rule}
    (hsq : sq = done ++ next :: rest2)
    (hkeys : s1.ctxs.map Prod.fst = done.map Rule.path)
    (hblk : s1.inFlight.any (fun f => dep next.path f.path) = false) :
    ∀ a ∈ sq, dep next.path a.path = true → a.path ≠ next.path →
      ∃ ca, ctxOf s1 a.path = some ca ∧
        (ca.status = Status.succeeded ∨ ca.status = Status.failed) := by
  intro a ha hdep hne
  have hadone : a ∈ done := by
    rw [hsq] at ha
    rcases List.mem_append.mp ha with h | h
    · exact h
    · exact absurd (V.topo done next rest2 hsq a h hdep) hne
  have hpkey : a.path ∈ s1.ctxs.map Prod.fst := by
    rw [hkeys]
    exact List.mem_map_of_mem Rule.path hadone
  obtain ⟨ca, hca⟩ := pyGet_some_of_mem_keys _ _ hpkey
  refine ⟨ca, hca, ?_⟩
  rcases B.ctx_shape a.path ca hca with h | h | h
  · exfalso
    obtain ⟨r, hr, hrp⟩ := B.running_inflight a.path ca hca h.1
    have hdr : dep next.path r.path = true := by
      rw [hrp]
      exact hdep
    have hany : s1.inFlight.any (fun f => dep next.path f.path) = true :=
      List.any_eq_true.mpr ⟨r, hr, hdr⟩
    rw [hblk] at hany
    exact Bool.noConfusion hany
  · exact Or.inl h.1
  · exact Or.inr h.1

/-- When additionally `check_predecessor_failures` found no failed direct
predecessor, every transitive predecessor of the head has in fact
succeeded (by decomposing through a direct predecessor and using the
invariant for that predecessor). -/
theorem preds_of_head_succeeded {dep : String → String → Bool} {sq : List Rule}
    (V : ValidSeq dep sq) {s1 : DriverState} (B : InvBase dep sq s1)
    {done rest2 : List Rule} {next : Rule}
    (hsq : sq = done ++ next :: rest2)
    (hkeys : s1.ctxs.map Prod.fst = done.map Rule.path)
    (hblk : s1.inFlight.any (fun f => dep next.path f.path) = false)
    (hchk : checkPredecessorFailures s1 next = false) :
    ∀ a ∈ sq, dep next.path a.path = true → a.path ≠ next.path →
      ∃ ca, ctxOf s1 a.path = some ca ∧ ca.status = Status.succeeded := by
  have hnext : next ∈ sq := by
    rw [hsq]
    exact List.mem_append.mpr (Or.inr (List.mem_cons_self next rest2))
  intro a ha hdep hne
  obtain ⟨p, hpmem, hpdep⟩ := V.decomp next hnext a ha hdep hne
  obtain ⟨rp, hrp, hrppath⟩ := V.closed next hnext p hpmem
  have hpne : p ≠ next.path := fun he => V.no_self next hnext (he ▸ hpmem)
  have hrpne : rp.path ≠ next.path := by
    rw [hrppath]
    exact hpne
  have hrpdep : dep next.path rp.path = true := by
    rw [hrppath]
    exact V.predDep next hnext p hpmem
  obtain ⟨cp, hcp, hcpterm⟩ :=
    preds_of_head_terminal V B hsq hkeys hblk rp hrp hrpdep hrpne
  have hcpp : ctxOf s1 p = some cp := by
    rw [← hrppath]
    exact hcp
  have hcpnotfail : cp.status ≠ Status.failed := by
    intro hfail
    have hct : checkPredecessorFailures s1 next = true := by
      rw [checkPredecessorFailures]
      apply List.any_eq_true.mpr
      refine ⟨p, hpmem, ?_⟩
      rw [hcpp]
      simp [hfail]
    rw [hchk] at hct
    exact Bool.noConfusion hct
  have hcpsucc : cp.status = Status.succeeded := by
    rcases hcpterm with h | h
    · exact h
    · exact absurd h hcpnotfail
  by_cases hpa : p = a.path
  · refine ⟨cp, ?_, hcpsucc⟩
    rw [← hpa]
    exact hcpp
  · have hbegun : cp.begun = true := by
      rcases B.ctx_shape rp.path cp hcp with h | h | h
      · rw [h.1] at hcpsucc
        exact Status.noConfusion hcpsucc
      · exact h.2
      · rw [h.1] at hcpsucc
        exact Status.noConfusion hcpsucc
    exact B.preds_succeeded rp.path cp hcp hbegun a ha
      (by rw [hrppath] ; exact hpdep)
      (by rw [hrppath] ; exact fun he => hpa he.symm)

theorem pumpCore_eq_done {dep : String → String → Bool} {stopOnError : Bool}
    {recur : Bool → DriverState → DriverState} {prevOk : Bool}
    {s : DriverState} (h : s.mainDone.isSome = true) :
    pumpCore dep stopOnError recur prevOk s = s := by
  unfold pumpCore
  rw [if_pos h]

theorem pumpCore_eq_nil {dep : String → String → Bool} {stopOnError : Bool}
    {recur : Bool → DriverState → DriverState} {prevOk : Bool}
    {s : DriverState} (h : s.mainDone.isSome = false)
    (hr : (pumpUpdate stopOnError prevOk s).remaining = []) :
    pumpCore dep stopOnError recur prevOk s =
      { pumpUpdate stopOnError prevOk s with
        mainDone := some (!(pumpUpdate stopOnError prevOk s).anyFailed) } := by
  simp only [pumpCore, h, Bool.false_eq_true, if_false, hr]

theorem pumpCore_eq_cons {dep : String → String → Bool} {stopOnError : Bool}
    {recur : Bool → DriverState → DriverState} {prevOk : Bool}
    {s : DriverState} {next : Rule} {rest2 : List Rule}
    (h : s.mainDone.isSome = false)
    (hr : (pumpUpdate stopOnError prevOk s).remaining = next :: rest2) :
    pumpCore dep stopOnError recur prevOk s =
      (if (pumpUpdate stopOnError prevOk s).inFlight.any
          (fun f => dep next.path f.path) then
        pumpUpdate stopOnError prevOk s
       else if checkPredecessorFailures
          (issueState (pumpUpdate stopOnError prevOk s) next rest2) next then
        recur false
          (cascadeState (issueState (pumpUpdate stopOnError prevOk s) next rest2) next)
       else beginState (issueState (pumpUpdate stopOnError prevOk s) next rest2) next) := by
  simp only [pumpCore, h, Bool.false_eq_true, if_false, hr]

theorem exists_ctx_append {P : RuleCtx → Prop} {m : List (String × RuleCtx)}
    {q : String} (p0 : String) (c0 : RuleCtx)
    (h : ∃ ca, pyGet m q = some ca ∧ P ca) :
    ∃ ca, pyGet (m ++ [(p0, c0)]) q = some ca ∧ P ca := by
  obtain ⟨ca, hca, hP⟩ := h
  exact ⟨ca, pyGet_append_old p0 c0 hca, hP⟩

theorem pumpUpdate_remaining (stopOnError prevOk : Bool) (s : DriverState) :
    (pumpUpdate stopOnError prevOk s).remaining = s.remaining ∨
    (pumpUpdate stopOnError prevOk s).remaining = [] := by
  by_cases h : (!prevOk && stopOnError) = true
  · right
    show (if !prevOk && stopOnError then [] else s.remaining) = []
    rw [if_pos h]
  · left
    show (if !prevOk && stopOnError then [] else s.remaining) = s.remaining
    rw [if_neg h]

theorem pumpUpdate_invbase {dep : String → String → Bool} {sq : List Rule}
    (stopOnError prevOk : Bool) {s : DriverState} (hB : InvBase dep sq s)
    (hmdn : s.mainDone = none)
    (hPF : prevOk = false →
      ∃ p c, ctxOf s p = some c ∧ c.status = Status.failed) :
    InvBase dep sq (pumpUpdate stopOnError prevOk s) := by
  refine ⟨?_, hB.inflight_ctx, hB.inflight_nodup, hB.running_inflight,
    hB.ctx_shape, ?_, ?_, hB.preds_terminal, hB.preds_succeeded⟩
  · obtain ⟨done, rest, hsq, hkeys, hrem⟩ := hB.split
    refine ⟨done, rest, hsq, hkeys, ?_⟩
    by_cases hclear : (!prevOk && stopOnError) = true
    · right
      constructor
      · show (if !prevOk && stopOnError then [] else s.remaining) = []
        rw [if_pos hclear]
      · right
        show (s.anyFailed || !prevOk) = true
        have := (Bool.and_eq_true _ _).mp hclear
        rw [this.1]
        simp
    · have hsame : (pumpUpdate stopOnError prevOk s).remaining = s.remaining := by
        show (if !prevOk && stopOnError then [] else s.remaining) = s.remaining
        rw [if_neg hclear]
      rw [hsame]
      rcases hrem with h | ⟨h1, h2⟩
      · exact Or.inl h
      · refine Or.inr ⟨h1, ?_⟩
        rcases h2 with h2 | h2
        · exact Or.inl h2
        · right
          show (s.anyFailed || !prevOk) = true
          rw [h2]
          simp
  · intro h1
    have h1' : (s.anyFailed || !prevOk) = true := h1
    cases hsa : s.anyFailed with
    | true => exact hB.anyFailed_failed hsa
    | false =>
      rw [hsa] at h1'
      simp only [Bool.false_or, Bool.not_eq_true'] at h1'
      exact hPF h1'
  · intro b hb
    have hb' : s.mainDone = some b := hb
    rw [hmdn] at hb'
    exact Option.noConfusion hb'

theorem pumpUpdate_failedSound (stopOnError prevOk : Bool) {s : DriverState}
    (hFS : prevOk = true → FailedSound s) :
    FailedSound (pumpUpdate stopOnError prevOk s) := by
  intro hmd p c hc hf
  show (s.anyFailed || !prevOk) = true
  cases prevOk with
  | false => simp
  | true =>
    rw [hFS rfl hmd p c hc hf]
    rfl

/-- Preservation of the driver invariant by one `_pump` body.  `recur` is
the `_pump(False)` re-entry of a cascading failure; `hrec` is its induction
hypothesis (it receives a state with strictly shorter `remaining`). -/
theorem pumpCore_pres {dep : String → String → Bool} {stopOnError : Bool}
    {sq : List Rule} (V : ValidSeq dep sq)
    (recur : Bool → DriverState → DriverState) (fuel : Nat)
    (hrec : ∀ s', InvBase dep sq s' →
      (∃ p c, ctxOf s' p = some c ∧ c.status = Status.failed) →
      s'.remaining.length < fuel →
      InvBase dep sq (recur false s') ∧ FailedSound (recur false s') ∧
        AllDoneResolved sq (recur false s'))
    (prevOk : Bool) (s : DriverState) (hB : InvBase dep sq s)
    (hFS : prevOk = true → FailedSound s)
    (hPF : prevOk = false →
      ∃ p c, ctxOf s p = some c ∧ c.status = Status.failed)
    (hfuel : s.remaining.length < fuel + 1) :
    InvBase dep sq (pumpCore dep stopOnError recur prevOk s) ∧
    FailedSound (pumpCore dep stopOnError recur prevOk s) ∧
    AllDoneResolved sq (pumpCore dep stopOnError recur prevOk s) := by
  by_cases hmd : s.mainDone.isSome = true
  · rw [pumpCore_eq_done hmd]
    refine ⟨hB, ?_, fun _ _ => hmd⟩
    intro hmdnone
    rw [hmdnone] at hmd
    exact Bool.noConfusion hmd
  · have hmd' : s.mainDone.isSome = false := by
      cases h : s.mainDone.isSome with
      | true => exact absurd h hmd
      | false => rfl
    have hmdn : s.mainDone = none := Option.not_isSome_iff_eq_none.mp hmd
    have hB1 : InvBase dep sq (pumpUpdate stopOnError prevOk s) :=
      pumpUpdate_invbase stopOnError prevOk hB hmdn hPF
    have hFS1 : FailedSound (pumpUpdate stopOnError prevOk s) :=
      pumpUpdate_failedSound stopOnError prevOk hFS
    cases hrem1 : (pumpUpdate stopOnError prevOk s).remaining with
    | nil =>
      rw [pumpCore_eq_nil hmd' hrem1]
      refine ⟨?_, ?_, fun _ _ => rfl⟩
      · refine ⟨hB1.split, hB1.inflight_ctx, hB1.inflight_nodup,
          hB1.running_inflight, hB1.ctx_shape, hB1.anyFailed_failed, ?_,
          hB1.preds_terminal, hB1.preds_succeeded⟩
        intro b hb
        have hb' : some (!(pumpUpdate stopOnError prevOk s).anyFailed) = some b := hb
        exact ⟨(Option.some.inj hb').symm, hrem1⟩
      · intro hmdnone
        exact Option.noConfusion hmdnone
    | cons next rest2 =>
      rw [pumpCore_eq_cons hmd' hrem1]
      obtain ⟨done, rest, hsq0, hkeys, hrem⟩ := hB1.split
      have hrest : rest = next :: rest2 := by
        rcases hrem with h | ⟨h1, _⟩
        · rw [hrem1] at h
          exact h.symm
        · rw [h1] at hrem1
          exact List.noConfusion hrem1
      subst hrest
      have hnextsq : next ∈ sq := by
        rw [hsq0]
        exact List.mem_append.mpr (Or.inr (List.mem_cons_self _ _))
      have hfresh : next.path ∉ done.map Rule.path := fresh_head V hsq0
      have hnone : ctxOf (pumpUpdate stopOnError prevOk s) next.path = none := by
        apply (pyGet_eq_none_iff _ _).mpr
        rw [hkeys]
        exact hfresh
      by_cases hblk : (pumpUpdate stopOnError prevOk s).inFlight.any
          (fun f => dep next.path f.path) = true
      · rw [if_pos hblk]
        refine ⟨hB1, hFS1, ?_⟩
        intro hne hall
        exfalso
        obtain ⟨c, hc, _⟩ := hall next hnextsq
        rw [hnone] at hc
        exact Option.noConfusion hc
      · have hblk' : (pumpUpdate stopOnError prevOk s).inFlight.any
            (fun f => dep next.path f.path) = false := by
          cases h : (pumpUpdate stopOnError prevOk s).inFlight.any
              (fun f => dep next.path f.path) with
          | true => exact absurd h hblk
          | false => rfl
        rw [if_neg hblk]
        have hxfl : ∀ x ∈ (pumpUpdate stopOnError prevOk s).inFlight,
            x.path ≠ next.path := by
          intro x hx he
          obtain ⟨cx, hcx, _⟩ := hB1.inflight_ctx x hx
          rw [he, hnone] at hcx
          exact Option.noConfusion hcx
        have hs1r : (pumpUpdate stopOnError prevOk s).remaining = s.remaining := by
          rcases pumpUpdate_remaining stopOnError prevOk s with h | h
          · exact h
          · rw [h] at hrem1
            exact List.noConfusion hrem1
        have hfuel2 : rest2.length < fuel := by
          have hsr : s.remaining = next :: rest2 := by
            rw [← hs1r]
            exact hrem1
          rw [hsr, List.length_cons] at hfuel
          omega
        by_cases hchk : checkPredecessorFailures
            (issueState (pumpUpdate stopOnError prevOk s) next rest2) next = true
        · rw [if_pos hchk]
          have hflc : (cascadeState (issueState (pumpUpdate stopOnError prevOk s) next rest2) next).inFlight
              = (pumpUpdate stopOnError prevOk s).inFlight := by
            show removeRule ((pumpUpdate stopOnError prevOk s).inFlight ++ [next]) next.path
              = (pumpUpdate stopOnError prevOk s).inFlight
            exact removeRule_append_last _ _ hxfl
          have hctxnew : ctxOf (cascadeState (issueState (pumpUpdate stopOnError prevOk s) next rest2) next) next.path
              = some cascadeCtx :=
            pyGet_append_new cascadeCtx hnone
          refine hrec _ ?_ ⟨next.path, cascadeCtx, hctxnew, rfl⟩ hfuel2
          refine ⟨?_, ?_, ?_, ?_, ?_, ?_, ?_, ?_, ?_⟩
          · refine ⟨done ++ [next], rest2, ?_, ?_, Or.inl rfl⟩
            · rw [hsq0]
              simp
            · show ((pumpUpdate stopOnError prevOk s).ctxs ++ [(next.path, cascadeCtx)]).map Prod.fst
                = (done ++ [next]).map Rule.path
              rw [List.map_append, List.map_append, hkeys]
              rfl
          · intro r hr
            rw [hflc] at hr
            obtain ⟨c, hc, hrun⟩ := hB1.inflight_ctx r hr
            exact ⟨c, pyGet_append_old _ _ hc, hrun⟩
          · rw [hflc]
            exact hB1.inflight_nodup
          · intro q c hc hrun
            rcases pyGet_append_cases hc with hold | ⟨hq, hcc, _⟩
            · obtain ⟨r, hr, hrp⟩ := hB1.running_inflight q c hold hrun
              refine ⟨r, ?_, hrp⟩
              rw [hflc]
              exact hr
            · subst hcc
              exact absurd hrun (by decide)
          · intro q c hc
            rcases pyGet_append_cases hc with hold | ⟨_, hcc, _⟩
            · exact hB1.ctx_shape q c hold
            · subst hcc
              exact Or.inr (Or.inr ⟨rfl, Or.inr ⟨rfl, rfl⟩⟩)
          · intro h
            obtain ⟨p, c, hc, hf⟩ := hB1.anyFailed_failed h
            exact ⟨p, c, pyGet_append_old _ _ hc, hf⟩
          · intro b hb
            have hb' : s.mainDone = some b := hb
            rw [hmdn] at hb'
            exact Option.noConfusion hb'
          · intro q c hc a ha hdep hne
            rcases pyGet_append_cases hc with hold | ⟨hq, _, _⟩
            · exact exists_ctx_append _ _ (hB1.preds_terminal q c hold a ha hdep hne)
            · subst hq
              exact exists_ctx_append _ _
                (preds_of_head_terminal V hB1 hsq0 hkeys hblk' a ha hdep hne)
          · intro q c hc hbg a ha hdep hne
            rcases pyGet_append_cases hc with hold | ⟨hq, hcc, _⟩
            · exact exists_ctx_append _ _
                (hB1.preds_succeeded q c hold hbg a ha hdep hne)
            · subst hcc
              exact absurd hbg (by decide)
        · rw [if_neg hchk]
          have hchk' : checkPredecessorFailures (pumpUpdate stopOnError prevOk s) next = false := by
            cases h : checkPredecessorFailures
                (issueState (pumpUpdate stopOnError prevOk s) next rest2) next with
            | true => exact absurd h hchk
            | false => exact h
          have hctxnewb : ctxOf (beginState (issueState (pumpUpdate stopOnError prevOk s) next rest2) next) next.path
              = some beginCtx :=
            pyGet_append_new beginCtx hnone
          refine ⟨⟨?_, ?_, ?_, ?_, ?_, ?_, ?_, ?_, ?_⟩, ?_, ?_⟩
          · refine ⟨done ++ [next], rest2, ?_, ?_, Or.inl rfl⟩
            · rw [hsq0]
              simp
            · show ((pumpUpdate stopOnError prevOk s).ctxs ++ [(next.path, beginCtx)]).map Prod.fst
                = (done ++ [next]).map Rule.path
              rw [List.map_append, List.map_append, hkeys]
              rfl
          · intro r hr
            rcases List.mem_append.mp hr with h | h
            · obtain ⟨c, hc, hrun⟩ := hB1.inflight_ctx r h
              exact ⟨c, pyGet_append_old _ _ hc, hrun⟩
            · have hrn : r = next := by
                simpa using h
              subst hrn
              exact ⟨beginCtx, hctxnewb, rfl⟩
          · show (((pumpUpdate stopOnError prevOk s).inFlight ++ [next]).map Rule.path).Nodup
            rw [List.map_append]
            apply List.Nodup.append hB1.inflight_nodup (List.nodup_singleton _)
            intro a ha hb
            have hbn : a = next.path := by
              simpa using hb
            obtain ⟨x, hx, hxp⟩ := List.mem_map.mp ha
            exact hxfl x hx (by rw [hxp] ; exact hbn)
          · intro q c hc hrun
            rcases pyGet_append_cases hc with hold | ⟨hq, _, _⟩
            · obtain ⟨r, hr, hrp⟩ := hB1.running_inflight q c hold hrun
              exact ⟨r, List.mem_append.mpr (Or.inl hr), hrp⟩
            · subst hq
              exact ⟨next, List.mem_append.mpr (Or.inr (by simp)), rfl⟩
          · intro q c hc
            rcases pyGet_append_cases hc with hold | ⟨_, hcc, _⟩
            · exact hB1.ctx_shape q c hold
            · subst hcc
              exact Or.inl ⟨rfl, rfl⟩
          · intro h
            obtain ⟨p, c, hc, hf⟩ := hB1.anyFailed_failed h
            exact ⟨p, c, pyGet_append_old _ _ hc, hf⟩
          · intro b hb
            have hb' : s.mainDone = some b := hb
            rw [hmdn] at hb'
            exact Option.noConfusion hb'
          · intro q c hc a ha hdep hne
            rcases pyGet_append_cases hc with hold | ⟨hq, _, _⟩
            · exact exists_ctx_append _ _ (hB1.preds_terminal q c hold a ha hdep hne)
            · subst hq
              exact exists_ctx_append _ _
                (preds_of_head_terminal V hB1 hsq0 hkeys hblk' a ha hdep hne)
          · intro q c hc hbg a ha hdep hne
            rcases pyGet_append_cases hc with hold | ⟨hq, _, _⟩
            · exact exists_ctx_append _ _
                (hB1.preds_succeeded q c hold hbg a ha hdep hne)
            · subst hq
              exact exists_ctx_append _ _
                (preds_of_head_succeeded V hB1 hsq0 hkeys hblk' hchk' a ha hdep hne)
          · intro hmdnone q c hc hf
            rcases pyGet_append_cases hc with hold | ⟨_, hcc, _⟩
            · exact hFS1 hmdnone q c hold hf
            · subst hcc
              exact absurd hf (by decide)
          · intro hne hall
            exfalso
            obtain ⟨c, hc, hterm⟩ := hall next hnextsq
            rw [hctxnewb] at hc
            have hceq : beginCtx = c := Option.some.inj hc
            rw [← hceq] at hterm
            rcases hterm with h | h <;> exact absurd h (by decide)

theorem pumpAux_pres {dep : String → String → Bool} {stopOnError : Bool}
    {sq : List Rule} (V : ValidSeq dep sq) :
    ∀ (fuel : Nat) (prevOk : Bool) (s : DriverState), InvBase dep sq s →
    (prevOk = true → FailedSound s) →
    (prevOk = false →
      ∃ p c, ctxOf s p = some c ∧ c.status = Status.failed) →
    s.remaining.length < fuel →
    InvBase dep sq (pumpAux dep stopOnError fuel prevOk s) ∧
    FailedSound (pumpAux dep stopOnError fuel prevOk s) ∧
    AllDoneResolved sq (pumpAux dep stopOnError fuel prevOk s) := by
  intro fuel
  induction fuel with
  | zero =>
    intro prevOk s _ _ _ hfuel
    exact absurd hfuel (by omega)
  | succ fuel ih =>
    intro prevOk s hB hFS hPF hfuel
    exact pumpCore_pres V (pumpAux dep stopOnError fuel) fuel
      (fun s2 hB2 hex2 hfu2 =>
        ih false s2 hB2 (fun h => Bool.noConfusion h) (fun _ => hex2) hfu2)
      prevOk s hB hFS hPF hfuel

theorem pump_pres {dep : String → String → Bool} {stopOnError : Bool}
    {sq : List Rule} (V : ValidSeq dep sq) (prevOk : Bool) (s : DriverState)
    (hB : InvBase dep sq s) (hFS : prevOk = true → FailedSound s)
    (hPF : prevOk = false →
      ∃ p c, ctxOf s p = some c ∧ c.status = Status.failed) :
    InvBase dep sq (pump dep stopOnError prevOk s) ∧
    FailedSound (pump dep stopOnError prevOk s) ∧
    AllDoneResolved sq (pump dep stopOnError prevOk s) :=
  pumpAux_pres V (s.remaining.length + 1) prevOk s hB hFS hPF
    (Nat.lt_succ_self _)

theorem stepEvent_eq_noflight {dep : String → String → Bool}
    {stopOnError : Bool} {s : DriverState} {e : Event}
    (h : ¬ s.inFlight.any (fun r => r.path = e.path) = true) :
    stepEvent dep stopOnError s e = s := by
  unfold stepEvent
  rw [if_neg h]

theorem stepEvent_eq_noctx {dep : String → String → Bool}
    {stopOnError : Bool} {s : DriverState} {e : Event}
    (h : s.inFlight.any (fun r => r.path = e.path) = true)
    (hc : ctxOf s e.path = none) :
    stepEvent dep stopOnError s e = s := by
  unfold stepEvent
  rw [if_pos h, hc]

theorem stepEvent_eq_notrunning {dep : String → String → Bool}
    {stopOnError : Bool} {s : DriverState} {e : Event} {c : RuleCtx}
    (h : s.inFlight.any (fun r => r.path = e.path) = true)
    (hc : ctxOf s e.path = some c) (hr : ¬ c.status = Status.running) :
    stepEvent dep stopOnError s e = s := by
  unfold stepEvent
  rw [if_pos h, hc]
  show (if c.status = Status.running then _ else s) = s
  rw [if_neg hr]

theorem stepEvent_eq_running {dep : String → String → Bool}
    {stopOnError : Bool} {s : DriverState} {e : Event} {c : RuleCtx}
    (h : s.inFlight.any (fun r => r.path = e.path) = true)
    (hc : ctxOf s e.path = some c) (hr : c.status = Status.running) :
    stepEvent dep stopOnError s e =
      pump dep stopOnError e.ok (eventState s e c) := by
  unfold stepEvent
  rw [if_pos h, hc]
  show (if c.status = Status.running then _ else s) = _
  rw [if_pos hr]

theorem stepEvent_pres {dep : String → String → Bool} {stopOnError : Bool}
    {sq : List Rule} (V : ValidSeq dep sq) (s : DriverState) (e : Event)
    (hB : InvBase dep sq s) (hFS : FailedSound s)
    (hAD : AllDoneResolved sq s) :
    InvBase dep sq (stepEvent dep stopOnError s e) ∧
    FailedSound (stepEvent dep stopOnError s e) ∧
    AllDoneResolved sq (stepEvent dep stopOnError s e) := by
  by_cases hin : s.inFlight.any (fun r => r.path = e.path) = true
  · cases hctx : ctxOf s e.path with
    | none =>
      rw [stepEvent_eq_noctx hin hctx]
      exact ⟨hB, hFS, hAD⟩
    | some c =>
      by_cases hrun : c.status = Status.running
      · rw [stepEvent_eq_running hin hctx hrun]
        have hkey : e.path ∈ s.ctxs.map Prod.fst :=
          mem_keys_of_pyGet_some _ _ _ hctx
        have hkeys1 : (pySet s.ctxs e.path (eventCtx e c)).map Prod.fst
            = s.ctxs.map Prod.fst := pySet_keys _ _ _ hkey
        have hlook_self : ctxOf (eventState s e c) e.path = some (eventCtx e c) :=
          pyGet_pySet_self _ _ _
        have hlook_ne : ∀ q, q ≠ e.path →
            ctxOf (eventState s e c) q = ctxOf s q :=
          fun q hq => pyGet_pySet_ne _ _ _ _ hq
        have hbegun : c.begun = true := by
          rcases hB.ctx_shape e.path c hctx with h | h | h
          · exact h.2
          · rw [h.1] at hrun
            exact Status.noConfusion hrun
          · rw [h.1] at hrun
            exact Status.noConfusion hrun
        have hecterm : (eventCtx e c).status = Status.succeeded ∨
            (eventCtx e c).status = Status.failed := by
          unfold eventCtx
          by_cases he : e.ok = true
          · rw [if_pos he]
            exact Or.inl rfl
          · rw [if_neg he]
            exact Or.inr rfl
        have hecbegun : (eventCtx e c).begun = true := by
          unfold eventCtx
          by_cases he : e.ok = true
          · rw [if_pos he]
            exact hbegun
          · rw [if_neg he]
            exact hbegun
        have hBev : InvBase dep sq (eventState s e c) := by
          refine ⟨?_, ?_, ?_, ?_, ?_, ?_, ?_, ?_, ?_⟩
          · obtain ⟨done, rest, hsq, hkeys, hrem⟩ := hB.split
            refine ⟨done, rest, hsq, ?_, hrem⟩
            show (pySet s.ctxs e.path (eventCtx e c)).map Prod.fst
              = done.map Rule.path
            rw [hkeys1, hkeys]
          · intro r hr
            have hrs : r ∈ s.inFlight := mem_of_mem_removeRule hr
            have hrne : r.path ≠ e.path :=
              path_ne_of_mem_removeRule hB.inflight_nodup hr
            obtain ⟨c0, hc0, hrun0⟩ := hB.inflight_ctx r hrs
            refine ⟨c0, ?_, hrun0⟩
            rw [hlook_ne r.path hrne]
            exact hc0
          · exact nodup_removeRule hB.inflight_nodup
          · intro q c0 hc0 hrun0
            by_cases hq : q = e.path
            · subst hq
              rw [hlook_self] at hc0
              have hec := Option.some.inj hc0
              rw [← hec] at hrun0
              rcases hecterm with h | h <;> rw [h] at hrun0 <;>
                exact Status.noConfusion hrun0
            · rw [hlook_ne q hq] at hc0
              obtain ⟨r, hr, hrp⟩ := hB.running_inflight q c0 hc0 hrun0
              refine ⟨r, mem_removeRule_of_ne hr ?_, hrp⟩
              rw [hrp]
              exact hq
          · intro q c0 hc0
            by_cases hq : q = e.path
            · subst hq
              rw [hlook_self] at hc0
              have hec := Option.some.inj hc0
              rw [← hec]
              rcases hecterm with h | h
              · exact Or.inr (Or.inl ⟨h, hecbegun⟩)
              · exact Or.inr (Or.inr ⟨h, Or.inl hecbegun⟩)
            · rw [hlook_ne q hq] at hc0
              exact hB.ctx_shape q c0 hc0
          · intro h
            obtain ⟨p, c0, hc0, hf0⟩ := hB.anyFailed_failed h
            have hpne : p ≠ e.path := by
              intro he
              rw [he, hctx] at hc0
              have hec := Option.some.inj hc0
              rw [← hec] at hf0
              rw [hrun] at hf0
              exact Status.noConfusion hf0
            refine ⟨p, c0, ?_, hf0⟩
            rw [hlook_ne p hpne]
            exact hc0
          · intro b hb
            have hb' : s.mainDone = some b := hb
            exact hB.main_res b hb'
          · intro q c0 hc0 a ha hdep hne
            have hsrc : ∃ c1, ctxOf s q = some c1 := by
              by_cases hq : q = e.path
              · exact ⟨c, hq ▸ hctx⟩
              · rw [hlook_ne q hq] at hc0
                exact ⟨c0, hc0⟩
            obtain ⟨c1, hc1⟩ := hsrc
            obtain ⟨ca, hca, hterm⟩ := hB.preds_terminal q c1 hc1 a ha hdep hne
            have hane : a.path ≠ e.path := by
              intro he
              rw [he, hctx] at hca
              have hec := Option.some.inj hca
              rw [← hec] at hterm
              rcases hterm with h | h <;> rw [hrun] at h <;>
                exact Status.noConfusion h
            refine ⟨ca, ?_, hterm⟩
            rw [hlook_ne a.path hane]
            exact hca
          · intro q c0 hc0 hbg0 a ha hdep hne
            have hsrc : ∃ c1, ctxOf s q = some c1 ∧ c1.begun = true := by
              by_cases hq : q = e.path
              · exact ⟨c, hq ▸ hctx, hbegun⟩
              · rw [hlook_ne q hq] at hc0
                exact ⟨c0, hc0, hbg0⟩
            obtain ⟨c1, hc1, hbg1⟩ := hsrc
            obtain ⟨ca, hca, hsucc⟩ :=
              hB.preds_succeeded q c1 hc1 hbg1 a ha hdep hne
            have hane : a.path ≠ e.path := by
              intro he
              rw [he, hctx] at hca
              have hec := Option.some.inj hca
              rw [← hec] at hsucc
              rw [hrun] at hsucc
              exact Status.noConfusion hsucc
            refine ⟨ca, ?_, hsucc⟩
            rw [hlook_ne a.path hane]
            exact hca
        apply pump_pres V e.ok (eventState s e c) hBev
        · intro hok
          intro hmdn0 q c0 hc0 hf0
          show s.anyFailed = true
          by_cases hq : q = e.path
          · subst hq
            rw [hlook_self] at hc0
            have hec := Option.some.inj hc0
            rw [← hec] at hf0
            rw [show eventCtx e c = { c with status := Status.succeeded } from
              by unfold eventCtx ; rw [if_pos hok]] at hf0
            exact Status.noConfusion hf0
          · rw [hlook_ne q hq] at hc0
            exact hFS hmdn0 q c0 hc0 hf0
        · intro hnok
          refine ⟨e.path, eventCtx e c, hlook_self, ?_⟩
          have hoknot : ¬ e.ok = true := by
            rw [hnok]
            exact Bool.noConfusion
          show (eventCtx e c).status = Status.failed
          unfold eventCtx
          rw [if_neg hoknot]
      · rw [stepEvent_eq_notrunning hin hctx hrun]
        exact ⟨hB, hFS, hAD⟩
  · rw [stepEvent_eq_noflight hin]
    exact ⟨hB, hFS, hAD⟩

/-- The initial state satisfies the invariant. -/
theorem initState_inv (dep : String → String → Bool) (sq : List Rule) :
    InvBase dep sq (initState sq) ∧ FailedSound (initState sq) ∧
    AllDoneResolved sq (initState sq) := by
  refine ⟨⟨⟨[], sq, rfl, rfl, Or.inl rfl⟩, ?_, ?_, ?_, ?_, ?_, ?_, ?_, ?_⟩, ?_, ?_⟩
  · intro r hr
    cases hr
  · exact List.nodup_nil
  · intro p c hc
    exact Option.noConfusion hc
  · intro p c hc
    exact Option.noConfusion hc
  · intro h
    exact Bool.noConfusion h
  · intro b hb
    exact Option.noConfusion hb
  · intro p c hc
    exact Option.noConfusion hc
  · intro p c hc
    exact Option.noConfusion hc
  · intro hmd p c hc
    exact Option.noConfusion hc
  · intro hne hall
    exfalso
    cases sq with
    | nil => exact hne rfl
    | cons r rest =>
      obtain ⟨c, hc, _⟩ := hall r (List.mem_cons_self r rest)
      exact Option.noConfusion hc

/-- Every reachable driver state satisfies the invariant. -/
theorem reachable_inv {dep : String → String → Bool} {stopOnError : Bool}
    {sq : List Rule} (V : ValidSeq dep sq) {s : DriverState}
    (h : Reachable dep stopOnError sq s) :
    InvBase dep sq s ∧ FailedSound s ∧ AllDoneResolved sq s := by
  induction h with
  | init => exact initState_inv dep sq
  | pump h ih =>
    exact pump_pres V true _ ih.1 (fun _ => ih.2.1) (fun hc => Bool.noConfusion hc)
  | step e h ih =>
    exact stepEvent_pres V _ e ih.1 ih.2.1 ih.2.2

/-- C2: in every state the driver can reach while executing a sequence with
the properties `calculate_rule_sequence` guarantees (`ValidSeq`), every
issued rule — every rule with a context, i.e. one whose `begin` or
`cascade_failure` has been invoked — has all of its transitive
predecessors in a terminal status (`SUCCEEDED` or `FAILED`).  Since
terminal statuses never change afterwards, each predecessor was terminal
already at the moment the rule was issued. -/
theorem driver_preds_terminal_before_issue
    (dep : String → String → Bool) (stopOnError : Bool) (sq : List Rule)
    (V : ValidSeq dep sq) (s : DriverState)
    (hs : Reachable dep stopOnError sq s)
    (p : String) (c : RuleCtx) (hc : ctxOf s p = some c)
    (a : Rule) (ha : a ∈ sq) (hdep : dep p a.path = true)
    (hne : a.path ≠ p) :
    ∃ ca, ctxOf s a.path = some ca ∧
      (ca.status = Status.succeeded ∨ ca.status = Status.failed) :=
  ((reachable_inv V hs).1).preds_terminal p c hc a ha hdep hne

/-- C4 amended: a rule issued while some transitive predecessor has
finished `FAILED` is failed at issue time via the `cascade_failure` path —
its status is `FAILED`, its `begin` is never invoked — but no dedicated
Cascaded reason is recorded: the context's exception stays `None`
(`cascade_failure` calls `_fail()` bare; a `CascadingError` is only a TODO
in the source). -/
theorem driver_cascade_without_reason
    (dep : String → String → Bool) (stopOnError : Bool) (sq : List Rule)
    (V : ValidSeq dep sq) (s : DriverState)
    (hs : Reachable dep stopOnError sq s)
    (p : String) (cb : RuleCtx) (hcb : ctxOf s p = some cb)
    (a : Rule) (ha : a ∈ sq) (hdep : dep p a.path = true) (hne : a.path ≠ p)
    (ca : RuleCtx) (hca : ctxOf s a.path = some ca)
    (hfail : ca.status = Status.failed) :
    cb.status = Status.failed ∧ cb.begun = false ∧ cb.exn = none := by
  obtain ⟨hB, _, _⟩ := reachable_inv V hs
  by_cases hbg : cb.begun = true
  · exfalso
    obtain ⟨ca2, hca2, hsucc⟩ := hB.preds_succeeded p cb hcb hbg a ha hdep hne
    rw [hca] at hca2
    have hce := Option.some.inj hca2
    rw [← hce] at hsucc
    rw [hfail] at hsucc
    exact Status.noConfusion hsucc
  · have hbg' : cb.begun = false := by
      cases h : cb.begun with
      | true => exact absurd h hbg
      | false => rfl
    rcases hB.ctx_shape p cb hcb with h | h | h
    · rw [h.2] at hbg'
      exact Bool.noConfusion hbg'
    · rw [h.2] at hbg'
      exact Bool.noConfusion hbg'
    · rcases h.2 with h2 | h2
      · rw [h2] at hbg'
        exact Bool.noConfusion hbg'
      · exact ⟨h.1, h2.1, h2.2⟩

/-! ### Concrete driver runs (witnesses and counterexamples) -/

/-- The priming loop of `execute`:
`for rule in rule_sequence: _pump()`. -/
def executePrime (dep : String → String → Bool) (stopOnError : Bool)
    (sq : List Rule) : DriverState :=
  sq.foldl (fun st _ => pump dep stopOnError true st) (initState sq)

theorem foldl_pump_reachable {dep : String → String → Bool}
    {stopOnError : Bool} {sq : List Rule} (l : List Rule) (s : DriverState)
    (h : Reachable dep stopOnError sq s) :
    Reachable dep stopOnError sq
      (l.foldl (fun st _ => pump dep stopOnError true st) s) := by
  induction l generalizing s with
  | nil => exact h
  | cons x xs ih => exact ih _ (Reachable.pump h)

theorem executePrime_reachable (dep : String → String → Bool)
    (stopOnError : Bool) (sq : List Rule) :
    Reachable dep stopOnError sq (executePrime dep stopOnError sq) :=
  foldl_pump_reachable sq (initState sq) Reachable.init

/-- `has_dependency` on the two-rule project `{:a, :b (deps :a)}`:
reflexive, plus the one real dependency. -/
def depW : String → String → Bool :=
  fun x y => (x == y) || (x == ":b" && y == ":a")

/-- The leaf rule `:a` of the witness project. -/
def wRuleA : Rule := { path := ":a", srcs := [], deps := [], src_filter := none }

/-- The dependent rule `:b` (deps `[:a]`) of the witness project. -/
def wRuleB : Rule := { path := ":b", srcs := [], deps := [":a"], src_filter := none }

/-- The sequence `calculate_rule_sequence([':b'])` yields: `[:a, :b]`. -/
def seqW : List Rule := [wRuleA, wRuleB]

theorem seqW_valid : ValidSeq depW seqW :=
  ⟨by decide, ValidSeq.topo_of_fin depW seqW (by decide), by decide,
   by decide, by decide, by decide⟩

/-- The run where `:a` completes successfully (after the priming pumps the
driver has `:a` running and `:b` blocked; the completion event issues
`:b`). -/
def wStateOk : DriverState :=
  stepEvent depW false (executePrime depW false seqW)
    { path := ":a", ok := true, exn := none }

theorem wStateOk_reachable : Reachable depW false seqW wStateOk :=
  Reachable.step _ (executePrime_reachable depW false seqW)

/-- The run where `:a` fails with an exception (the completion event issues
`:b`, which cascades, and the main deferred errbacks). -/
def wStateFail : DriverState :=
  stepEvent depW false (executePrime depW false seqW)
    { path := ":a", ok := false, exn := some "boom" }

theorem wStateFail_reachable : Reachable depW false seqW wStateFail :=
  Reachable.step _ (executePrime_reachable depW false seqW)

/-- Witness for C2 at a concrete run: after `:a` succeeded and `:b` was
issued (its context exists), the predecessor `:a` has a terminal context. -/
theorem driver_preds_terminal_before_issue_witness :
    ctxOf wStateOk ":b" = some beginCtx ∧
    (∃ ca, ctxOf wStateOk ":a" = some ca ∧
      (ca.status = Status.succeeded ∨ ca.status = Status.failed)) :=
  ⟨rfl,
   driver_preds_terminal_before_issue depW false seqW seqW_valid wStateOk
     wStateOk_reachable ":b" beginCtx rfl wRuleA (by decide) (by decide)
     (by decide)⟩

/-- `has_dependency` on the two-rule project `{:i1, :i2}` with no edges:
the two rules are independent. -/
def depI : String → String → Bool := fun x y => x == y

/-- First independent rule of the premature-resolution project. -/
def iRule1 : Rule := { path := ":i1", srcs := [], deps := [], src_filter := none }

/-- Second independent rule of the premature-resolution project. -/
def iRule2 : Rule := { path := ":i2", srcs := [], deps := [], src_filter := none }

/-- The sequence `calculate_rule_sequence` yields for the two independent
targets. -/
def seqI : List Rule := [iRule1, iRule2]

/-- The run on `seqI` right after `:i1` completes successfully: the two
priming pumps issued both rules, `remaining_rules` is empty, and the
re-entrant `_pump` hits the source's `else` branch. -/
def iStateResolved : DriverState :=
  stepEvent depI false (executePrime depI false seqI)
    { path := ":i1", ok := true, exn := none }

/-- The same run after `:i2` subsequently fails: `_pump(False)` exits at
the `main_deferred.is_done()` guard without recording anything. -/
def iStateFinal : DriverState :=
  stepEvent depI false iStateResolved
    { path := ":i2", ok := false, exn := some "late boom" }

/-- C3: the main deferred of `execute` does NOT resolve with failure iff
some rule finished `FAILED`.  Two divergences, both exhibited on concrete
runs of the embedded driver.  (i) Premature resolution: on two independent
rules, once `remaining_rules` empties, the completion of `:i1` resolves the
deferred with SUCCESS while `:i2` is still in flight; when `:i2` later
fails, `_pump(False)` early-returns on `main_deferred.is_done()`, so the
run ends with a successfully-resolved deferred, an untouched `any_failed`,
and a `FAILED` rule context — the failure is silently swallowed.  (ii) An
empty rule sequence performs zero priming pumps, so the deferred never
resolves at all even though every rule (vacuously) succeeded. -/
theorem execute_premature_success_resolution :
    (iStateResolved.mainDone = some true ∧
      iStateResolved.inFlight = [iRule2] ∧
      ctxOf iStateResolved ":i2" = some beginCtx) ∧
    (iStateFinal.mainDone = some true ∧
      iStateFinal.anyFailed = false ∧
      ctxOf iStateFinal ":i2" =
        some { status := Status.failed, begun := true, exn := some "late boom" }) ∧
    ((executePrime depI false []).mainDone = none ∧
      stepEvent depI false (executePrime depI false [])
        { path := ":i1", ok := true, exn := none } = executePrime depI false []) :=
  ⟨⟨rfl, rfl, rfl⟩, ⟨rfl, rfl, rfl⟩, ⟨rfl, rfl⟩⟩

/-- Witness for the amended C4 at a concrete run: `:b`, issued after `:a`
failed, carries the cascade context — `FAILED`, `begin` never invoked, no
exception recorded. -/
theorem driver_cascade_without_reason_witness :
    ctxOf wStateFail ":b" = some cascadeCtx ∧
    (cascadeCtx.status = Status.failed ∧ cascadeCtx.begun = false ∧
      cascadeCtx.exn = none) :=
  ⟨rfl,
   driver_cascade_without_reason depW false seqW seqW_valid wStateFail
     wStateFail_reachable ":b" cascadeCtx rfl wRuleA (by decide) (by decide)
     (by decide) { status := Status.failed, begun := true, exn := some "boom" }
     rfl rfl⟩

/-- Counterexample to C4 as stated: the cascaded rule `:b` records no
Cascaded failure reason — its exception field is `None` (`cascade_failure`
calls `_fail()` bare; the dedicated `CascadingError` is a TODO in the
source), whereas the genuinely failed `:a` carries its exception. -/
theorem cascade_records_no_reason :
    ctxOf wStateFail ":b" =
      some { status := Status.failed, begun := false, exn := none } ∧
    ctxOf wStateFail ":a" =
      some { status := Status.failed, begun := true, exn := some "boom" } :=
  ⟨rfl, rfl⟩

end Anvil
